/-
Verification of the fiber-clustering core of khanlab/neurobeer
(src/neurobeer/tractography/cluster.py) against its natural-language
specification.  Matrices are modelled row-major as lists of lists over a
linear ordered field; the float matrices of the Python code are embedded
as exact rationals (and as reals where a Euclidean norm, i.e. a square
root, is involved).  External numerical collaborators (numpy eigensolver,
scipy k-means) are modelled as explicit function parameters constrained
only by their documented shape contracts.
-/
import Mathlib

/-- Row-major matrix as a list of rows. -/
abbrev Mat (α : Type) := List (List α)

/-- Entry (i, j) of a matrix, with default 0 when out of range. -/
def matEntry {α : Type} [LinearOrderedField α] (M : Mat α) (i j : ℕ) : α :=
  (M.getD i []).getD j 0

/-- Shape predicate: a matrix with r rows, each of length c. -/
def MatShape {α : Type} (M : Mat α) (r c : ℕ) : Prop :=
  M.length = r ∧ ∀ row ∈ M, row.length = c

/-- Column j of a matrix (reading entry j of every row, default 0), as a
list; this is how `numpy` reductions over axis 0 see the data. -/
def colVals {α : Type} [LinearOrderedField α] (M : Mat α) (j : ℕ) : List α :=
  M.map (fun row => row.getD j 0)

/-- Minimum of a list (0 for the empty list). -/
def listMin {α : Type} [LinearOrderedField α] : List α → α
  | [] => 0
  | x :: xs => xs.foldl min x

/-- Maximum of a list (0 for the empty list). -/
def listMax {α : Type} [LinearOrderedField α] : List α → α
  | [] => 0
  | x :: xs => xs.foldl max x

/-- One entry of `sklearn.preprocessing.MinMaxScaler().fit_transform`:
column j is rescaled by (x - colmin) / (colmax - colmin), a zero column
range being replaced by 1 (sklearn `_handle_zeros_in_scale`). -/
def scaleEntry {α : Type} [LinearOrderedField α] [DecidableEq α]
    (M : Mat α) (j : ℕ) (x : α) : α :=
  let mn := listMin (colVals M j)
  let mx := listMax (colVals M j)
  (x - mn) / (if mx = mn then 1 else mx - mn)

/-- Per-column min-max normalization of a matrix, as applied by
`sklearn.preprocessing.MinMaxScaler().fit_transform` in
`_pairwiseDistance_matrix` and `_pairwiseQDistance_matrix`. -/
def minMaxScale {α : Type} [LinearOrderedField α] [DecidableEq α] (M : Mat α) : Mat α :=
  M.map (fun row => row.enum.map (fun p => scaleEntry M p.1 p.2))

/-- Python booleans compare to floats by value: True == 1.0, False == 0.0.
This coercion mirrors that in the diagonal guards of cluster.py. -/
def boolToF {α : Type} [LinearOrderedField α] (b : Bool) : α :=
  if b then 1 else 0

/-- The boolean `np.diag(M).all()`: true iff every diagonal entry is
nonzero. -/
def diagAllNZ {α : Type} [LinearOrderedField α] [DecidableEq α] (M : Mat α) : Bool :=
  (List.range M.length).all (fun i => !(decide (matEntry M i i = 0)))

/-- Errors surfaced by the weighted-similarity construction: the two
`exit()` calls of the weight/type validation, the `exit()` of the
diagonal guard, and a Python IndexError crash. -/
inductive WErr where
  | weightSpec : WErr
  | weightSum : WErr
  | invariant : WErr
  | crash : WErr
deriving DecidableEq, Repr

/-- The guard `if np.diag(similarities).all() != 1.0: exit()` of
`_pairwiseSimilarity_matrix`, `_pairwiseQSimilarity_matrix` and
`_pairwiseWeightedSimilarity` (line 702): the boolean `.all()` result is
compared to the float 1.0, so the guard fires exactly when `.all()` is
False, i.e. when some diagonal entry is zero. -/
def simDiagGuard {α : Type} [LinearOrderedField α] [DecidableEq α]
    (M : Mat α) : Except WErr (Mat α) :=
  if boolToF (diagAllNZ M) ≠ (1 : α) then Except.error WErr.invariant else Except.ok M

/-- Elementwise scalar multiple of a matrix (`wSimilarity * w`). -/
def matScale {α : Type} [LinearOrderedField α] (c : α) (M : Mat α) : Mat α :=
  M.map (fun row => row.map (fun x => x * c))

/-- Elementwise sum of two matrices of equal shape (`wSimilarity += ...`). -/
def matAdd {α : Type} [LinearOrderedField α] (A B : Mat α) : Mat α :=
  A.zipWith (fun r s => r.zipWith (· + ·) s) B

/-- The accumulation loop of `_pairwiseWeightedSimilarity` /
`_priorWeightedSimilarity`: starting from the geometry term, add
`similarity(types[i]) * scalarWeightList[i+1]` for each scalar channel.
`qSim t = none` models the per-channel similarity construction crashing
(see `_pairwiseQDistance_matrix`); an out-of-range weight access is a
Python IndexError. -/
def combineGo {α σ : Type} [LinearOrderedField α]
    (qSim : σ → Option (Mat α)) (weights : List α) :
    List σ → ℕ → Mat α → Except WErr (Mat α)
  | [], _, acc => Except.ok acc
  | t :: ts, i, acc =>
    match qSim t with
    | none => Except.error WErr.crash
    | some S =>
      match weights.get? (i + 1) with
      | none => Except.error WErr.crash
      | some w => combineGo qSim weights ts (i + 1) (matAdd acc (matScale w S))

/-- Model of `_pairwiseWeightedSimilarity` (cluster.py lines 631-706).
`geoSim` stands for the output of `_pairwiseSimilarity_matrix` and
`qSim t` for the output of `_pairwiseQSimilarity_matrix` on channel `t`
(`none` when that construction crashes).  The branch structure, the exact
`np.sum(scalarWeightList) != 1.0` test, the `scalarWeightList[0] == 1`
shortcut, and the final diagonal guard (line 702) follow the source. -/
def pairwiseWeightedSimilarity {α σ : Type} [LinearOrderedField α] [DecidableEq α]
    (geoSim : Mat α) (types : List σ) (qSim : σ → Option (Mat α))
    (weights : List α) : Except WErr (Mat α) :=
  if weights.isEmpty ∧ ¬ types.isEmpty then Except.error WErr.weightSpec
  else if ¬ weights.isEmpty ∧ types.isEmpty then Except.error WErr.weightSpec
  else if (weights.isEmpty ∧ types.isEmpty) ∨ weights.head? = some 1 then
    simDiagGuard geoSim
  else if weights.sum ≠ 1 then Except.error WErr.weightSum
  else
    match combineGo qSim weights types 0 (matScale (weights.headD 0) geoSim) with
    | Except.error e => Except.error e
    | Except.ok M => simDiagGuard M

/-- Model of `_priorWeightedSimilarity` (cluster.py lines 708-783): same
branch structure as `pairwiseWeightedSimilarity` but with the rectangular
prior similarities and, per the source, no final diagonal guard. -/
def priorWeightedSimilarity {α σ : Type} [LinearOrderedField α] [DecidableEq α]
    (geoSim : Mat α) (types : List σ) (qSim : σ → Option (Mat α))
    (weights : List α) : Except WErr (Mat α) :=
  if weights.isEmpty ∧ ¬ types.isEmpty then Except.error WErr.weightSpec
  else if ¬ weights.isEmpty ∧ types.isEmpty then Except.error WErr.weightSpec
  else if (weights.isEmpty ∧ types.isEmpty) ∨ weights.head? = some 1 then
    Except.ok geoSim
  else if weights.sum ≠ 1 then Except.error WErr.weightSum
  else combineGo qSim weights types 0 (matScale (weights.headD 0) geoSim)

/-- The guard `if np.diag(distances).all() != 0.0: exit()` of
`_pairwiseDistance_matrix` and `_pairwiseQDistance_matrix`: the boolean
`.all()` compares equal to the float 0.0 exactly when it is False, so the
guard exits iff every diagonal entry is nonzero (in particular, on an
empty diagonal, where `.all()` is True). -/
def distDiagGuard {α : Type} [LinearOrderedField α] [DecidableEq α]
    (M : Mat α) : Option (Mat α) :=
  if boolToF (diagAllNZ M) ≠ (0 : α) then none else some M

/-- A 3D point with real coordinates. -/
abbrev Pt := ℝ × ℝ × ℝ

/-- Modelled from the spec: the Euclidean norm of a 3D displacement, as
used by the geometric fiber distance of the missing module distance.py. -/
noncomputable def pnorm (v : Pt) : ℝ :=
  Real.sqrt (v.1 ^ 2 + v.2.1 ^ 2 + v.2.2 ^ 2)

/-- Componentwise difference of 3D points. -/
def psub (a b : Pt) : Pt :=
  (a.1 - b.1, a.2.1 - b.2.1, a.2.2 - b.2.2)

/-- Modelled from the spec: the forward mean closest-point distance,
mean over p of the Euclidean norm of a[p] − b[p]. -/
noncomputable def dForward (f g : List Pt) : ℝ :=
  (f.zipWith (fun a b => pnorm (psub a b)) g).sum / f.length

/-- Modelled from the spec: distance.fiberDistance (not under src/), the
orientation-invariant geometric fiber distance
min(d_forward(a, b), d_reverse(a, b)), where d_reverse pairs a[p] with
b[P−1−p], i.e. is d_forward against the reversed fiber. -/
noncomputable def fiberDistance (f g : List Pt) : ℝ :=
  min (dForward f g) (dForward f g.reverse)

/-- The mirrored raw distance matrix of `_pairwiseDistance_matrix` (lines
325-338): row i of the parallel result holds d(fiber i, fiber j) for
j = i..N−1 and the mirroring loop writes both (i, j) and (j, i) from it,
so entry (a, b) is d(fiber min(a,b), fiber max(a,b)). -/
noncomputable def rawDistMatrix (fibers : List (List Pt)) : Mat ℝ :=
  (List.range fibers.length).map (fun a =>
    (List.range fibers.length).map (fun b =>
      fiberDistance (fibers.getD (min a b) []) (fibers.getD (max a b) [])))

/-- Model of `_pairwiseDistance_matrix` (cluster.py lines 312-347):
mirror, per-column min-max normalization, then the diagonal guard. -/
noncomputable def pairwiseDistance_matrix (fibers : List (List Pt)) : Option (Mat ℝ) :=
  distDiagGuard (minMaxScale (rawDistMatrix fibers))

/-- Modelled from the spec: forward scalar distance, the mean absolute
difference of two per-fiber scalar sequences. -/
def sdForward (a b : List ℚ) : ℚ :=
  (a.zipWith (fun x y => |x - y|) b).sum / a.length

/-- Modelled from the spec: distance.scalarDistance (not under src/), the
mean absolute difference with the same forward/reverse minimum as the
geometric distance. -/
def scalarDistance (a b : List ℚ) : ℚ :=
  min (sdForward a b) (sdForward a b.reverse)

/-- The per-row results of the parallel loop of `_pairwiseQDistance_matrix`
(lines 390-396): row i holds the scalar distances of fiber i to fibers
i..N−1, hence has length N − i. -/
def qTemp (scalars : List (List ℚ)) : List (List ℚ) :=
  (List.range scalars.length).map (fun i =>
    (scalars.drop i).map (fun s => scalarDistance (scalars.getD i []) s))

/-- Option-valued traversal of a list: `none` as soon as one element
fails, modelling a Python loop that raises on a failing access. -/
def optTraverse {β γ : Type} (f : β → Option γ) : List β → Option (List γ)
  | [] => some []
  | x :: xs =>
    match f x with
    | none => none
    | some y => (optTraverse f xs).map (fun ys => y :: ys)

/-- The mirroring loop of `_pairwiseQDistance_matrix` (lines 398-405): it
reads `temp[i][j]` — not `temp[i][idx]` — for i ≤ j < N, so it indexes
row i (of length N − i) at column positions up to N − 1; a failing access
is a Python IndexError, modelled as `none`. -/
def qDistMirror (temp : List (List ℚ)) (n : ℕ) : Option (Mat ℚ) :=
  optTraverse (fun a =>
    optTraverse (fun b => (temp.get? (min a b)).bind (fun row => row.get? (max a b)))
      (List.range n))
    (List.range n)

/-- Model of `_pairwiseQDistance_matrix` (cluster.py lines 376-414):
mirror (with the faulty `temp[i][j]` access), min-max normalization, and
the distance diagonal guard. -/
def pairwiseQDistance_matrix (scalars : List (List ℚ)) : Option (Mat ℚ) :=
  (qDistMirror (qTemp scalars) scalars.length).bind
    (fun M => distDiagGuard (minMaxScale M))

/-- Column sums `np.sum(M, 0)`: one entry per column of M (reductions
over axis 0 run down each column). -/
def colSums {α : Type} [LinearOrderedField α] (M : Mat α) : List α :=
  (List.range ((M.headD []).length)).map (fun j => (colVals M j).sum)

/-- Mean of a list of values (np.mean). -/
def meanL {α : Type} [LinearOrderedField α] (l : List α) : α :=
  l.sum / l.length

/-- Population variance of a list of values (the square of np.std). -/
def varL {α : Type} [LinearOrderedField α] (l : List α) : α :=
  meanL (l.map (fun x => (x - meanL l) ^ 2))

/-- Decidable form of the rejection test `x < mean − 2·std` of
`_outlierSimDetection`, where std = √variance: for nonnegative variance
it is equivalent to 0 < mean − x together with 4·variance < (mean − x)²
(lemma rejectb_iff_sqrt below). -/
def rejectb (m v x : ℚ) : Bool :=
  decide (0 < m - x) && decide (4 * v < (m - x) ^ 2)

/-- np.delete(M, idxs, 0): drop the rows whose index is in idxs. -/
def npDeleteRows {α : Type} (M : Mat α) (idxs : List ℕ) : Mat α :=
  (M.enum.filter (fun p => !(idxs.contains p.1))).map (fun p => p.2)

/-- np.delete(M, idxs, 1): drop the columns whose index is in idxs. -/
def npDeleteCols {α : Type} (M : Mat α) (idxs : List ℕ) : Mat α :=
  M.map (fun row => (row.enum.filter (fun p => !(idxs.contains p.1))).map (fun p => p.2))

/-- Model of `_outlierSimDetection` (cluster.py lines 811-833).  Note
that `W_rowsum = np.sum(W, 0)` sums over axis 0 and hence holds the
column sums of W; `np.where` yields the qualifying indices in ascending
order, and both the rows and the columns at those indices are deleted. -/
def outlierSimDetection (W : Mat ℚ) : Mat ℚ × List ℕ :=
  let r := colSums W
  let rej := (List.range r.length).filter (fun j => rejectb (meanL r) (varL r) (r.getD j 0))
  (npDeleteCols (npDeleteRows W rej) rej, rej)

/-- Dot product of two lists (truncating zip). -/
def dotProd {α : Type} [LinearOrderedField α] (a b : List α) : α :=
  (a.zipWith (· * ·) b).sum

/-- np.dot on 2-D arrays: entry (i, j) is row i of A dotted with column
j of B. -/
def matMul {α : Type} [LinearOrderedField α] (A B : Mat α) : Mat α :=
  A.map (fun row => (List.range ((B.headD []).length)).map (fun j => dotProd row (colVals B j)))

/-- np.diag of a vector: the square matrix with the vector on the
diagonal. -/
def diagMat {α : Type} [LinearOrderedField α] (l : List α) : Mat α :=
  (List.range l.length).map (fun i =>
    (List.range l.length).map (fun j => if i = j then l.getD i 0 else 0))

/-- Python column slice `M[:, lo:hi]` (bounds clamped as in Python). -/
def sliceCols {α : Type} (M : Mat α) (lo hi : ℕ) : Mat α :=
  M.map (fun row => (row.drop lo).take (hi - lo))

/-- Model of `_degreeMatrix`: np.diag(np.sum(inputMatrix, 0)). -/
def degreeMatrix {α : Type} [LinearOrderedField α] (M : Mat α) : Mat α :=
  diagMat (colSums M)

/-- Elementwise difference of two matrices (D − W). -/
def matSub {α : Type} [LinearOrderedField α] (A B : Mat α) : Mat α :=
  A.zipWith (fun r s => r.zipWith (· - ·) s) B

/-- The embedding column selection of `spectralClustering` (lines
95-102): branching k against eigvec.shape[0] (the row count), slice the
columns 1:shape[0], 1:k, or 1:k+1. -/
def emvecSelect {α : Type} (eigvec : Mat α) (k : ℕ) : Mat α :=
  if eigvec.length < k then sliceCols eigvec 1 eigvec.length
  else if k = eigvec.length then sliceCols eigvec 1 k
  else sliceCols eigvec 1 (k + 1)

/-- Argsort of a list of values, ascending (np.argsort; modelled with a
stable sort). -/
def argsortAsc (vals : List ℚ) : List ℕ :=
  List.insertionSort (fun a b => vals.getD a 0 ≤ vals.getD b 0) (List.range vals.length)

/-- Lines 89-90: `idx = eigval.argsort(); eigval, eigvec = eigval[idx],
eigvec[:, idx]`. -/
def sortEig (eigval : List ℚ) (eigvec : Mat ℚ) : List ℚ × Mat ℚ :=
  let idx := argsortAsc eigval
  (idx.map (fun i => eigval.getD i 0), eigvec.map (fun row => idx.map (fun j => row.getD j 0)))

/-- np.unique of a list of naturals: the distinct values present, in
ascending order. -/
def npUnique (labels : List ℕ) : List ℕ :=
  (List.range (labels.foldr max 0 + 1)).filter (fun c => labels.contains c)

/-- Model of `_sortLabel` (cluster.py lines 785-809): argsort of the
negated per-cluster counts (modelled with a stable sort); each fiber of
cluster i is relabelled to the position of i in that order; centroid row
i becomes the row of the cluster in position i.  Rows beyond the loop
range keep their original values, as does any label outside
range(len(sortedClusters)). -/
def sortLabel (centroids : Mat ℚ) (labels : List ℕ) : Mat ℚ × List ℕ :=
  let uniq := npUnique labels
  let counts := uniq.map (fun c => labels.count c)
  let sortedClusters := List.insertionSort
    (fun a b => counts.getD b 0 ≤ counts.getD a 0) (List.range uniq.length)
  let newLabels := labels.map
    (fun c => if c < sortedClusters.length then sortedClusters.indexOf c else c)
  let newCentroids := (List.range centroids.length).map (fun i =>
    if i < sortedClusters.length then centroids.getD (sortedClusters.getD i 0) []
    else centroids.getD i [])
  (newCentroids, newLabels)

/-- Squared Euclidean distance between two vectors. -/
def sqDist (a b : List ℚ) : ℚ :=
  (a.zipWith (fun x y => (x - y) ^ 2) b).sum

/-- Fold of scipy.cluster.vq.vq over the candidate centroids: keep the
first centroid index at minimal distance (strict improvement replaces). -/
def vqGo (row : List ℚ) (centroids : Mat ℚ) : List (ℕ × List ℚ) → ℕ → ℕ
  | [], best => best
  | p :: ps, best =>
    vqGo row centroids ps
      (if sqDist row p.2 < sqDist row (centroids.getD best []) then p.1 else best)

/-- The code assigned to one observation by scipy.cluster.vq.vq: the
index of the nearest centroid (first one on ties; the squared distance
has the same minimizers as the Euclidean distance). -/
def vqCode (row : List ℚ) (centroids : Mat ℚ) : ℕ :=
  vqGo row centroids centroids.enum 0

/-- scipy.cluster.vq.vq codes for every observation (matrix row). -/
def vqCodes (M : Mat ℚ) (centroids : Mat ℚ) : List ℕ :=
  M.map (fun row => vqCode row centroids)

/-- The Nystrom-style extension core of `spectralPriorCluster` (lines
199-224): nEigvec = W·U·diag(1/Λ); the column selection branches on
nEigvec.shape[0] for the first test but on eigvec.shape[0] for the
second, as in the source; `.real` is the identity in this real-valued
model; labels by scipy vq against the prior centroids, which are passed
through unchanged. -/
def spectralPriorCore (W U : Mat ℚ) (eigval : List ℚ) (priorCentroids : Mat ℚ) :
    Mat ℚ × List ℕ × Mat ℚ :=
  let nEigvec := matMul (matMul W U) (diagMat (eigval.map (fun x => 1 / x)))
  let k := priorCentroids.length
  let emvec :=
    if nEigvec.length < k then sliceCols nEigvec 1 nEigvec.length
    else if k = U.length then sliceCols nEigvec 1 k
    else sliceCols nEigvec 1 (k + 1)
  (emvec, vqCodes emvec priorCentroids, priorCentroids)

/-- Output record of the training pipeline core. -/
structure TrainOut where
  W2 : Mat ℚ
  rejIdx : List ℕ
  D : Mat ℚ
  L : Mat ℚ
  Lrw : Mat ℚ
  emvec : Mat ℚ
  centroids : Mat ℚ
  labels : List ℕ

/-- The training pipeline of `spectralClustering` after the weighted
similarity W is built (lines 71-107): outlier rejection, degree matrix,
unnormalized and random-walk Laplacians, eigendecomposition (the external
dense symmetric solver `eigh` is a parameter), ascending sort, embedding
column selection, k-means (external, a parameter) and label sorting. -/
def spectralClusteringCore (W : Mat ℚ) (k : ℕ)
    (eigh : Mat ℚ → List ℚ × Mat ℚ) (kmeans : Mat ℚ → ℕ → Mat ℚ × List ℕ) :
    TrainOut :=
  let od := outlierSimDetection W
  let D := degreeMatrix od.1
  let L := matSub D od.1
  let Lrw := matMul (diagMat ((colSums D).map (fun x => 1 / x))) L
  let ev := eigh Lrw
  let sorted := sortEig ev.1 ev.2
  let emvec := emvecSelect sorted.2 k
  let km := kmeans emvec k
  let sl := sortLabel km.1 km.2
  ⟨od.1, od.2, D, L, Lrw, emvec, sl.1, sl.2⟩

instance {ε α : Type} [DecidableEq ε] [DecidableEq α] : DecidableEq (Except ε α) := fun a b =>
  match a, b with
  | Except.error e, Except.error f =>
    if h : e = f then Decidable.isTrue (by rw [h])
    else Decidable.isFalse (fun hc => h (Except.error.inj hc))
  | Except.error _, Except.ok _ => Decidable.isFalse (fun hc => Except.noConfusion hc)
  | Except.ok _, Except.error _ => Decidable.isFalse (fun hc => Except.noConfusion hc)
  | Except.ok x, Except.ok y =>
    if h : x = y then Decidable.isTrue (by rw [h])
    else Decidable.isFalse (fun hc => h (Except.ok.inj hc))

lemma optTraverse_eq_none {β γ : Type} (f : β → Option γ) (l : List β) (x : β)
    (hx : x ∈ l) (hf : f x = none) : optTraverse f l = none := by
  induction l with
  | nil => cases hx
  | cons y ys ih =>
    cases hx with
    | head => simp [optTraverse, hf]
    | tail _ hmem =>
      cases hy : f y with
      | none => simp [optTraverse, hy]
      | some v => simp [optTraverse, hy, ih hmem]

/-- Claim C9: for every scalar channel with N >= 2 fibers, the scalar
pairwise distance construction fails instead of returning a matrix: the
mirroring loop reads temp[i][j], but row i of temp only holds N - i
entries, so the access at row 1, column N-1 is past the end. -/
theorem c9_qdistance_crash (scalars : List (List ℚ)) (h : 2 ≤ scalars.length) :
    pairwiseQDistance_matrix scalars = none := by
  have hn : scalars.length - 1 < scalars.length := by omega
  have h1 : (1 : ℕ) ∈ List.range scalars.length := List.mem_range.mpr (by omega)
  have h2 : scalars.length - 1 ∈ List.range scalars.length := List.mem_range.mpr hn
  have hmin : min 1 (scalars.length - 1) = 1 := by omega
  have hmax : max 1 (scalars.length - 1) = scalars.length - 1 := by omega
  have hrow : (qTemp scalars).get? 1 = some ((scalars.drop 1).map
      (fun s => scalarDistance (scalars.getD 1 []) s)) := by
    rw [qTemp, List.get?_eq_getElem?, List.getElem?_map,
      List.getElem?_range (show 1 < scalars.length by omega)]
    rfl
  have hfail : ((qTemp scalars).get? (min 1 (scalars.length - 1))).bind
      (fun row => row.get? (max 1 (scalars.length - 1))) = none := by
    rw [hmin, hmax, hrow]
    have : ((scalars.drop 1).map
        (fun s => scalarDistance (scalars.getD 1 []) s)).length ≤ scalars.length - 1 := by
      rw [List.length_map, List.length_drop]
    rw [Option.some_bind]
    exact List.get?_eq_none.mpr this
  have hinner : optTraverse
      (fun b => ((qTemp scalars).get? (min 1 b)).bind (fun row => row.get? (max 1 b)))
      (List.range scalars.length) = none :=
    optTraverse_eq_none _ _ _ h2 hfail
  have houter : qDistMirror (qTemp scalars) scalars.length = none :=
    optTraverse_eq_none _ _ _ h1 hinner
  simp [pairwiseQDistance_matrix, houter]

/-- Claim C9, witness: the theorem instantiated at a two-fiber scalar
channel. -/
theorem c9_qdistance_crash_witness :
    2 ≤ ([[(0:ℚ)], [1]] : List (List ℚ)).length ∧
    pairwiseQDistance_matrix [[(0:ℚ)], [1]] = none :=
  ⟨by decide, c9_qdistance_crash _ (by decide)⟩

/-- Claim C2, counterexample: a square similarity matrix with diagonal
entry 1/2 — which differs from 1 — passes the similarity diagonal guard
and is returned unchanged, so the run does not fail with
InvariantViolation whenever a diagonal entry differs from 1. -/
theorem c2_diag_guard_counterexample :
    simDiagGuard [[(1:ℚ)/2]] = Except.ok [[1/2]] ∧ ((1:ℚ)/2 ≠ 1) := by
  with_unfolding_all decide

/-- Claim C2 (amended): after constructing a square similarity matrix,
the run fails with InvariantViolation if and only if some diagonal entry
of the matrix equals 0 — the guard `np.diag(S).all() != 1.0` compares the
boolean `.all()` result with the float 1.0, so it fires exactly when
`.all()` is False — and every matrix whose diagonal is all 1 passes the
check and is returned unchanged. -/
theorem c2_diag_guard_zero_iff (M : Mat ℚ) :
    (simDiagGuard M = Except.error WErr.invariant
      ↔ ∃ i, i < M.length ∧ matEntry M i i = 0) ∧
    ((∀ i, i < M.length → matEntry M i i = 1) → simDiagGuard M = Except.ok M) := by
  have hiff : diagAllNZ M = false ↔ ∃ i, i < M.length ∧ matEntry M i i = 0 := by
    unfold diagAllNZ
    rw [List.all_eq_false]
    constructor
    · intro hex
      obtain ⟨i, hi, hdec⟩ := hex
      refine ⟨i, List.mem_range.mp hi, ?_⟩
      simpa using hdec
    · intro hex
      obtain ⟨i, hi, h0⟩ := hex
      refine ⟨i, List.mem_range.mpr hi, ?_⟩
      simp [h0]
  constructor
  · constructor
    · intro herr
      refine hiff.mp ?_
      by_contra hcon
      have htrue : diagAllNZ M = true := by
        cases hb : diagAllNZ M with
        | false => exact absurd hb hcon
        | true => rfl
      rw [simDiagGuard, htrue] at herr
      simp [boolToF] at herr
    · intro hex
      rw [simDiagGuard, hiff.mpr hex]
      simp [boolToF]
  · intro hones
    have htrue : diagAllNZ M = true := by
      cases hb : diagAllNZ M with
      | true => rfl
      | false =>
        obtain ⟨i, hi, h0⟩ := hiff.mp hb
        rw [hones i hi] at h0
        exact absurd h0 one_ne_zero
    rw [simDiagGuard, htrue]
    simp [boolToF]

/-- Claim C2, witness: the amended theorem instantiated at the 1x1
matrix [[1]] (all-ones diagonal, so the guard passes and the matrix is
returned unchanged) and at [[0]] (a zero diagonal entry, so the guard
fails). -/
theorem c2_diag_guard_zero_iff_witness :
    (∀ i, i < ([[(1:ℚ)]] : Mat ℚ).length → matEntry [[(1:ℚ)]] i i = 1) ∧
    simDiagGuard [[(1:ℚ)]] = Except.ok [[(1:ℚ)]] ∧
    (simDiagGuard ([[(0:ℚ)]] : Mat ℚ) = Except.error WErr.invariant
      ↔ ∃ i, i < ([[(0:ℚ)]] : Mat ℚ).length ∧ matEntry [[(0:ℚ)]] i i = 0) :=
  ⟨by with_unfolding_all decide,
    (c2_diag_guard_zero_iff [[(1:ℚ)]]).2 (by with_unfolding_all decide),
    (c2_diag_guard_zero_iff [[(0:ℚ)]]).1⟩

/-- Claim C10 (amended): if the first (geometry) weight equals exactly
1, both weighted-similarity paths return the geometry similarity alone
for every NONEMPTY scalarTypeList and arbitrary remaining weights — the
per-channel similarity computations (qSim, here even a crashing one) are
never consulted and the weight-sum validation is skipped. -/
theorem c10_geometry_weight_one {σ : Type} (geoSim : Mat ℚ) (types : List σ)
    (qSim qSim2 : σ → Option (Mat ℚ)) (weights : List ℚ)
    (htypes : types ≠ []) (hw : weights.head? = some 1)
    (hdiag : ∀ i < geoSim.length, matEntry geoSim i i ≠ 0) :
    pairwiseWeightedSimilarity geoSim types qSim weights = Except.ok geoSim ∧
    priorWeightedSimilarity geoSim types qSim2 weights = Except.ok geoSim := by
  have hwne : weights ≠ [] := by
    intro hcon
    rw [hcon] at hw
    exact Option.noConfusion hw
  have hwempty : weights.isEmpty = false := by
    simpa [List.isEmpty_iff] using hwne
  have htempty : types.isEmpty = false := by
    simpa [List.isEmpty_iff] using htypes
  have hguard : simDiagGuard geoSim = Except.ok geoSim := by
    have hall : diagAllNZ geoSim = true := by
      unfold diagAllNZ
      rw [List.all_eq_true]
      intro i hi
      simp only [Bool.not_eq_true', decide_eq_false_iff_not]
      exact hdiag i (List.mem_range.mp hi)
    simp [simDiagGuard, hall, boolToF]
  constructor
  · unfold pairwiseWeightedSimilarity
    rw [if_neg (by simp [hwempty]), if_neg (by simp [htempty]), if_pos (Or.inr hw)]
    exact hguard
  · unfold priorWeightedSimilarity
    rw [if_neg (by simp [hwempty]), if_neg (by simp [htempty]), if_pos (Or.inr hw)]

/-- Claim C10, witness: the amended theorem instantiated with weights
[1, 1/2], one scalar type, and a crashing per-channel builder. -/
theorem c10_geometry_weight_one_witness :
    (([0] : List ℕ) ≠ [] ∧ ([(1:ℚ), 1/2].head? = some 1) ∧
      (∀ i < ([[(1:ℚ)]] : Mat ℚ).length, matEntry [[(1:ℚ)]] i i ≠ 0)) ∧
    pairwiseWeightedSimilarity [[(1:ℚ)]] [0] (fun _ => none) [1, 1/2] = Except.ok [[1]] ∧
    priorWeightedSimilarity [[(1:ℚ)]] [0] (fun _ => none) [1, 1/2] = Except.ok [[1]] :=
  ⟨⟨by decide, by with_unfolding_all decide, by with_unfolding_all decide⟩,
    c10_geometry_weight_one [[(1:ℚ)]] [0] (fun _ => none) (fun _ => none) [1, 1/2]
      (by decide) (by with_unfolding_all decide) (by with_unfolding_all decide)⟩

/-- Claim C10, counterexample to the original quantification: with an
empty scalarTypeList and weights [1, 1/2] both functions exit with the
weight/type mismatch error rather than returning the geometry
similarity. -/
theorem c10_empty_types_counterexample :
    pairwiseWeightedSimilarity [[(1:ℚ)]] ([] : List ℕ) (fun _ => some [[1]]) [1, 1/2]
        = Except.error WErr.weightSpec ∧
      priorWeightedSimilarity [[(1:ℚ)]] ([] : List ℕ) (fun _ => some [[1]]) [1, 1/2]
        = Except.error WErr.weightSpec := by
  with_unfolding_all decide

/-- Claim C4, counterexample: for a 3x3 eigenvector matrix and K = 2
(so 1 < K < N), the embedding passed to k-means has 2 = K columns, not
K - 1 = 1 as claimed. -/
theorem c4_embedding_cols_counterexample :
    ((emvecSelect ([[1,0,0],[0,1,0],[0,0,1]] : Mat ℚ) 2).headD []).length = 2 ∧
      ((emvecSelect ([[1,0,0],[0,1,0],[0,0,1]] : Mat ℚ) 2).headD []).length ≠ 2 - 1 := by
  with_unfolding_all decide

lemma emvecSelect_lt (eigvec : Mat ℚ) (k : ℕ) (hk : k < eigvec.length)
    (hne : k ≠ eigvec.length) :
    emvecSelect eigvec k = eigvec.map (fun r => (r.drop 1).take k) := by
  unfold emvecSelect
  rw [if_neg (by omega), if_neg hne]
  simp [sliceCols]

/-- Claim C4 (amended): for training with 1 < K < N, the embedding
passed to k-means has exactly K columns (the slice eigvec[:, 1:K+1]), and
under scipy kmeans2's shape contract the returned centroid matrix has
shape K x K. -/
theorem c4_embedding_cols_k (eigvec : Mat ℚ) (k : ℕ)
    (kmeans : Mat ℚ → ℕ → Mat ℚ × List ℕ)
    (hsq : ∀ row ∈ eigvec, row.length = eigvec.length)
    (h1 : 1 < k) (h2 : k < eigvec.length)
    (hkm : (kmeans (emvecSelect eigvec k) k).1.length = k ∧
      ∀ row ∈ (kmeans (emvecSelect eigvec k) k).1,
        row.length = ((emvecSelect eigvec k).headD []).length) :
    (∀ row ∈ emvecSelect eigvec k, row.length = k) ∧
    (kmeans (emvecSelect eigvec k) k).1.length = k ∧
    (∀ row ∈ (kmeans (emvecSelect eigvec k) k).1, row.length = k) := by
  have hsel := emvecSelect_lt eigvec k h2 (by omega)
  have hrows : ∀ row ∈ emvecSelect eigvec k, row.length = k := by
    intro row hrow
    rw [hsel] at hrow
    obtain ⟨r, hr, hmap⟩ := List.mem_map.mp hrow
    have hlr : r.length = eigvec.length := hsq r hr
    rw [← hmap, List.length_take, List.length_drop, hlr]
    omega
  refine ⟨hrows, hkm.1, ?_⟩
  have hlen0 : (emvecSelect eigvec k).length = eigvec.length := by
    rw [hsel, List.length_map]
  have hne : emvecSelect eigvec k ≠ [] := by
    intro hcon
    rw [hcon] at hlen0
    simp at hlen0
    omega
  have hhead : ((emvecSelect eigvec k).headD []).length = k := by
    cases hsel2 : emvecSelect eigvec k with
    | nil => exact absurd hsel2 hne
    | cons r rs =>
      have : r ∈ emvecSelect eigvec k := by rw [hsel2]; exact List.mem_cons_self r rs
      simpa using hrows r this
  intro row hrow
  rw [hkm.2 row hrow, hhead]

/-- Claim C4, witness: the amended theorem instantiated at the 3x3
identity eigenvector matrix, K = 2, and a shape-respecting k-means
stub. -/
theorem c4_embedding_cols_k_witness :
    ((∀ row ∈ ([[1,0,0],[0,1,0],[0,0,1]] : Mat ℚ), row.length = 3) ∧ 1 < 2 ∧ 2 < 3) ∧
    (∀ row ∈ emvecSelect ([[1,0,0],[0,1,0],[0,0,1]] : Mat ℚ) 2, row.length = 2) :=
  ⟨⟨by decide, by decide, by decide⟩,
    (c4_embedding_cols_k [[1,0,0],[0,1,0],[0,0,1]] 2
      (fun M k => (List.replicate k (M.headD []), List.replicate M.length 0))
      (by decide) (by decide) (by decide)
      (by with_unfolding_all decide)).1⟩

/-- Claim C5: the embedding matrix is obtained from the
ascending-sorted (square) eigenvector matrix by dropping the first column
and taking the next K columns; if K equals or exceeds the number of
available eigenvectors, all remaining columns after the first are taken
(the code prints a warning in the strictly-exceeding branch; printing is
not modelled). -/
theorem c5_embedding_column_selection (eigvec : Mat ℚ) (k : ℕ)
    (hsq : ∀ row ∈ eigvec, row.length = eigvec.length) :
    (k < eigvec.length →
      emvecSelect eigvec k = eigvec.map (fun r => (r.drop 1).take k)) ∧
    (eigvec.length ≤ k →
      emvecSelect eigvec k = eigvec.map (fun r => r.drop 1)) := by
  constructor
  · intro hk
    exact emvecSelect_lt eigvec k hk (by omega)
  · intro hk
    have hdrop : ∀ b : ℕ, eigvec.length ≤ b + 1 →
        eigvec.map (fun r => (r.drop 1).take b) = eigvec.map (fun r => r.drop 1) := by
      intro b hb
      refine List.map_congr_left ?_
      intro r hr
      refine List.take_of_length_le ?_
      rw [List.length_drop, hsq r hr]
      omega
    unfold emvecSelect
    rcases Nat.lt_or_ge eigvec.length k with hlt | hge
    · rw [if_pos hlt]
      simp only [sliceCols]
      exact hdrop (eigvec.length - 1) (by omega)
    · have hk2 : k = eigvec.length := by omega
      rw [if_neg (by omega), if_pos hk2]
      simp only [sliceCols]
      exact hdrop (k - 1) (by omega)

/-- Claim C5, witness: the theorem instantiated at the 3x3 identity
matrix with K = 2. -/
theorem c5_embedding_column_selection_witness :
    (∀ row ∈ ([[1,0,0],[0,1,0],[0,0,1]] : Mat ℚ), row.length = 3) ∧
    (2 < 3 → emvecSelect ([[1,0,0],[0,1,0],[0,0,1]] : Mat ℚ) 2
        = ([[1,0,0],[0,1,0],[0,0,1]] : Mat ℚ).map (fun r => (r.drop 1).take 2)) ∧
    (3 ≤ 2 → emvecSelect ([[1,0,0],[0,1,0],[0,0,1]] : Mat ℚ) 2
        = ([[1,0,0],[0,1,0],[0,0,1]] : Mat ℚ).map (fun r => r.drop 1)) :=
  ⟨by decide,
    (c5_embedding_column_selection [[1,0,0],[0,1,0],[0,0,1]] 2 (by decide)).1,
    (c5_embedding_column_selection [[1,0,0],[0,1,0],[0,0,1]] 2 (by decide)).2⟩

lemma matShape_row {M : Mat ℚ} {r c : ℕ} (h : MatShape M r c) {a : ℕ} (ha : a < r) :
    (M.getD a []).length = c := by
  have haM : a < M.length := by rw [h.1]; exact ha
  rw [List.getD_eq_getElem _ _ haM]
  exact h.2 _ (List.getElem_mem haM)

lemma matShape_matScale {M : Mat ℚ} {r c : ℕ} (h : MatShape M r c) (w : ℚ) :
    MatShape (matScale w M) r c := by
  constructor
  · rw [matScale, List.length_map, h.1]
  · intro row hrow
    obtain ⟨row0, hr0, heq⟩ := List.mem_map.mp hrow
    rw [← heq, List.length_map]
    exact h.2 row0 hr0

lemma matShape_matAdd {A B : Mat ℚ} {r c : ℕ} (hA : MatShape A r c) (hB : MatShape B r c) :
    MatShape (matAdd A B) r c := by
  constructor
  · rw [matAdd, List.length_zipWith, hA.1, hB.1, min_self]
  · intro row hrow
    simp only [matAdd] at hrow
    rw [List.mem_iff_getElem] at hrow
    obtain ⟨i, hi, heq⟩ := hrow
    have hiA : i < A.length := by
      rw [List.length_zipWith, hA.1, hB.1, min_self, ← hA.1] at hi
      exact hi
    have hiB : i < B.length := by rw [hB.1, ← hA.1]; exact hiA
    rw [List.getElem_zipWith] at heq
    rw [← heq, List.length_zipWith, hA.2 _ (List.getElem_mem hiA),
      hB.2 _ (List.getElem_mem hiB), min_self]

lemma matEntry_matScale {M : Mat ℚ} {r c : ℕ} (h : MatShape M r c) (w : ℚ) {a b : ℕ}
    (ha : a < r) (hb : b < c) :
    matEntry (matScale w M) a b = matEntry M a b * w := by
  have haM : a < M.length := by rw [h.1]; exact ha
  have hbM : b < (M.getD a []).length := by rw [matShape_row h ha]; exact hb
  rw [List.getD_eq_getElem _ _ haM] at hbM
  have h1 : a < (M.map (fun row => row.map (fun x => x * w))).length := by
    rw [List.length_map]; exact haM
  have h2 : b < (M[a].map (fun x => x * w)).length := by
    rw [List.length_map]; exact hbM
  simp only [matEntry, matScale]
  rw [List.getD_eq_getElem _ _ h1, List.getElem_map, List.getD_eq_getElem _ _ h2,
    List.getElem_map, List.getD_eq_getElem _ _ haM, List.getD_eq_getElem _ _ hbM]

lemma matEntry_matAdd {A B : Mat ℚ} {r c : ℕ} (hA : MatShape A r c) (hB : MatShape B r c)
    {a b : ℕ} (ha : a < r) (hb : b < c) :
    matEntry (matAdd A B) a b = matEntry A a b + matEntry B a b := by
  have haA : a < A.length := by rw [hA.1]; exact ha
  have haB : a < B.length := by rw [hB.1]; exact ha
  have hbA : b < (A.getD a []).length := by rw [matShape_row hA ha]; exact hb
  have hbB : b < (B.getD a []).length := by rw [matShape_row hB ha]; exact hb
  rw [List.getD_eq_getElem _ _ haA] at hbA
  rw [List.getD_eq_getElem _ _ haB] at hbB
  have h1 : a < (List.zipWith (fun r s => List.zipWith (· + ·) r s) A B).length := by
    rw [List.length_zipWith, hA.1, hB.1, min_self]; exact ha
  have h2 : b < (List.zipWith (· + ·) A[a] B[a]).length := by
    rw [List.length_zipWith]; omega
  simp only [matEntry, matAdd]
  rw [List.getD_eq_getElem _ _ h1, List.getElem_zipWith, List.getD_eq_getElem _ _ h2,
    List.getElem_zipWith, List.getD_eq_getElem _ _ haA, List.getD_eq_getElem _ _ hbA,
    List.getD_eq_getElem _ _ haB, List.getD_eq_getElem _ _ hbB]

lemma combineGo_ok {σ : Type} (qSim : σ → Option (Mat ℚ)) (weights : List ℚ) (n : ℕ) :
    ∀ (ts : List σ) (i : ℕ) (acc : Mat ℚ),
      MatShape acc n n →
      (∀ t ∈ ts, ∃ S, qSim t = some S ∧ MatShape S n n) →
      i + 1 + ts.length ≤ weights.length →
      ∃ M, combineGo qSim weights ts i acc = Except.ok M ∧ MatShape M n n ∧
        ∀ a b, a < n → b < n →
          matEntry M a b = matEntry acc a b +
            ((List.enumFrom (i + 1) ts).map
              (fun pt => weights.getD pt.1 0 * matEntry ((qSim pt.2).getD []) a b)).sum := by
  intro ts
  induction ts with
  | nil =>
    intro i acc hacc _ _
    refine ⟨acc, rfl, hacc, ?_⟩
    intro a b _ _
    simp [List.enumFrom]
  | cons t ts ih =>
    intro i acc hacc hq hlen
    obtain ⟨S, hS, hSshape⟩ := hq t (List.mem_cons_self t ts)
    have hwlt : i + 1 < weights.length := by
      simp only [List.length_cons] at hlen
      omega
    have hget : weights.get? (i + 1) = some (weights.getD (i + 1) 0) := by
      rw [List.get?_eq_getElem?, List.getElem?_eq_getElem hwlt,
        List.getD_eq_getElem _ _ hwlt]
    have hacc2 : MatShape (matAdd acc (matScale (weights.getD (i + 1) 0) S)) n n :=
      matShape_matAdd hacc (matShape_matScale hSshape _)
    obtain ⟨M, hM, hMshape, hMentry⟩ := ih (i + 1)
      (matAdd acc (matScale (weights.getD (i + 1) 0) S)) hacc2
      (fun u hu => hq u (List.mem_cons_of_mem t hu))
      (by simp only [List.length_cons] at hlen; omega)
    refine ⟨M, ?_, hMshape, ?_⟩
    · rw [combineGo, hS, hget]
      exact hM
    · intro a b ha hb
      rw [hMentry a b ha hb,
        matEntry_matAdd hacc (matShape_matScale hSshape _) ha hb,
        matEntry_matScale hSshape _ ha hb]
      show _ = _ + (((i + 1, t) :: List.enumFrom (i + 1 + 1) ts).map
        (fun pt => weights.getD pt.1 0 * matEntry ((qSim pt.2).getD []) a b)).sum
      rw [List.map_cons, List.sum_cons, hS]
      show _ + _ + _ = _ + (weights.getD (i + 1) 0 * matEntry S a b + _)
      ring

lemma enumFrom_getD_sum {σ : Type} (ws : List ℚ) :
    ∀ (ts : List σ) (i : ℕ), i + ts.length ≤ ws.length →
      ((List.enumFrom i ts).map (fun pt => ws.getD pt.1 0)).sum
        = ((ws.drop i).take ts.length).sum := by
  intro ts
  induction ts with
  | nil =>
    intro i _
    simp [List.enumFrom]
  | cons t ts ih =>
    intro i hlen
    have hi : i < ws.length := by
      simp only [List.length_cons] at hlen
      omega
    show (((i, t) :: List.enumFrom (i + 1) ts).map _).sum = _
    rw [List.map_cons, List.sum_cons,
      ih (i + 1) (by simp only [List.length_cons] at hlen; omega),
      List.drop_eq_getElem_cons hi, List.length_cons, List.take_succ_cons,
      List.sum_cons, List.getD_eq_getElem _ _ hi]

/-- Claim C3 (amended): with C >= 1 scalar channels, a weight vector of
length C+1 whose first entry is not 1, per-channel similarity matrices
that are produced successfully with unit diagonals, the combiner fails
with WeightSumError iff sum(w) differs from 1 EXACTLY; otherwise it
returns W with entries w[0]*S_g[i][j] + sum over c of w[c]*S_c[i][j]. -/
theorem c3_weight_sum_exact {σ : Type} (geoSim : Mat ℚ) (types : List σ)
    (qSim : σ → Option (Mat ℚ)) (weights : List ℚ) (n : ℕ)
    (htypes : types ≠ []) (hlen : weights.length = types.length + 1)
    (hw0 : weights.head? ≠ some 1)
    (hgeo : MatShape geoSim n n) (hgd : ∀ i < n, matEntry geoSim i i = 1)
    (hq : ∀ t ∈ types, ∃ S, qSim t = some S ∧ MatShape S n n ∧ ∀ i < n, matEntry S i i = 1) :
    (pairwiseWeightedSimilarity geoSim types qSim weights = Except.error WErr.weightSum
        ↔ weights.sum ≠ 1) ∧
    (weights.sum = 1 →
      ∃ M, pairwiseWeightedSimilarity geoSim types qSim weights = Except.ok M ∧
        ∀ a b, a < n → b < n →
          matEntry M a b = weights.getD 0 0 * matEntry geoSim a b +
            ((List.enumFrom 1 types).map
              (fun pt => weights.getD pt.1 0 * matEntry ((qSim pt.2).getD []) a b)).sum) := by
  have hwne : weights ≠ [] := by
    intro hcon
    rw [hcon] at hlen
    simp at hlen
  have hwempty : weights.isEmpty = false := by simpa [List.isEmpty_iff] using hwne
  have htempty : types.isEmpty = false := by simpa [List.isEmpty_iff] using htypes
  have hbranch : ∀ X : Except WErr (Mat ℚ),
      (if weights.isEmpty ∧ ¬ types.isEmpty then Except.error WErr.weightSpec
        else if ¬ weights.isEmpty ∧ types.isEmpty then Except.error WErr.weightSpec
        else if (weights.isEmpty ∧ types.isEmpty) ∨ weights.head? = some 1 then
          simDiagGuard geoSim
        else X) = X := by
    intro X
    rw [if_neg (by simp [hwempty]), if_neg (by simp [htempty]),
      if_neg (by simp [hwempty, hw0])]
  have hsucc : weights.sum = 1 →
      ∃ M, combineGo qSim weights types 0 (matScale (weights.headD 0) geoSim)
          = Except.ok M ∧ MatShape M n n ∧
        (∀ a b, a < n → b < n →
          matEntry M a b = weights.getD 0 0 * matEntry geoSim a b +
            ((List.enumFrom 1 types).map
              (fun pt => weights.getD pt.1 0 * matEntry ((qSim pt.2).getD []) a b)).sum) ∧
        (∀ i < n, matEntry M i i = 1) := by
    intro hsum
    have hacc : MatShape (matScale (weights.headD 0) geoSim) n n :=
      matShape_matScale hgeo _
    obtain ⟨M, hM, hMshape, hMentry⟩ := combineGo_ok qSim weights n types 0
      (matScale (weights.headD 0) geoSim) hacc
      (fun t ht => (hq t ht).elim (fun S hS => ⟨S, hS.1, hS.2.1⟩))
      (by omega)
    have hhead : weights.headD 0 = weights.getD 0 0 := by
      cases weights with
      | nil => rfl
      | cons w ws => rfl
    have hentry : ∀ a b, a < n → b < n →
        matEntry M a b = weights.getD 0 0 * matEntry geoSim a b +
          ((List.enumFrom 1 types).map
            (fun pt => weights.getD pt.1 0 * matEntry ((qSim pt.2).getD []) a b)).sum := by
      intro a b ha hb
      rw [hMentry a b ha hb, matEntry_matScale hgeo _ ha hb, hhead, mul_comm]
    refine ⟨M, hM, hMshape, hentry, ?_⟩
    intro i hi
    have hmapeq : (List.enumFrom 1 types).map
          (fun pt => weights.getD pt.1 0 * matEntry ((qSim pt.2).getD []) i i)
        = (List.enumFrom 1 types).map (fun pt => weights.getD pt.1 0) := by
      refine List.map_congr_left ?_
      intro pt hpt
      obtain ⟨h1, h2, h3⟩ := List.mem_enumFrom hpt
      have hmem : pt.2 ∈ types := by
        rw [h3]
        exact List.getElem_mem _
      obtain ⟨S, hS, _, hSd⟩ := hq pt.2 hmem
      rw [hS, Option.getD_some, hSd i hi, mul_one]
    have htake : (weights.drop 1).take types.length = weights.drop 1 := by
      refine List.take_of_length_le ?_
      rw [List.length_drop]
      omega
    rw [hentry i i hi hi, hgd i hi, mul_one, hmapeq,
      enumFrom_getD_sum weights types 1 (by omega), htake]
    cases weights with
    | nil => exact absurd rfl hwne
    | cons w ws =>
      rw [List.sum_cons] at hsum
      simpa using hsum
  have hguard : ∀ M : Mat ℚ, MatShape M n n → (∀ i < n, matEntry M i i = 1) →
      simDiagGuard M = Except.ok M := by
    intro M hMshape hMd
    have hall : diagAllNZ M = true := by
      unfold diagAllNZ
      rw [List.all_eq_true]
      intro i hi
      have hin : i < n := by
        rw [← hMshape.1]
        exact List.mem_range.mp hi
      simp only [Bool.not_eq_true', decide_eq_false_iff_not]
      rw [hMd i hin]
      exact one_ne_zero
    simp [simDiagGuard, hall, boolToF]
  constructor
  · constructor
    · intro herr
      intro hsum
      obtain ⟨M, hM, hMshape, _, hMd⟩ := hsucc hsum
      unfold pairwiseWeightedSimilarity at herr
      rw [hbranch, if_neg (by simp [hsum]), hM] at herr
      have herr2 : simDiagGuard M = Except.error WErr.weightSum := herr
      rw [hguard M hMshape hMd] at herr2
      exact Except.noConfusion herr2
    · intro hsum
      unfold pairwiseWeightedSimilarity
      rw [hbranch, if_pos hsum]
  · intro hsum
    obtain ⟨M, hM, hMshape, hMentry, hMd⟩ := hsucc hsum
    refine ⟨M, ?_, hMentry⟩
    unfold pairwiseWeightedSimilarity
    rw [hbranch, if_neg (by simp [hsum]), hM]
    exact hguard M hMshape hMd

/-- Claim C3, counterexample: with one scalar channel and weights
[1/2, 1/2 + 10^-12], whose sum is within the claimed 1e-9 tolerance of 1,
the code nevertheless exits with the weight-sum error: the test is exact
`np.sum(w) != 1.0`, not a tolerance. -/
theorem c3_tolerance_counterexample :
    pairwiseWeightedSimilarity [[(1:ℚ)]] ([0] : List ℕ) (fun _ => some [[1]])
        [1/2, 1/2 + 1/1000000000000] = Except.error WErr.weightSum ∧
      |([(1:ℚ)/2, 1/2 + 1/1000000000000].sum) - 1| ≤ 1/1000000000 := by
  with_unfolding_all decide

/-- Claim C3, witness: the amended theorem instantiated at a 1x1 store
with one scalar channel and weights [1/2, 1/2]. -/
theorem c3_weight_sum_exact_witness :
    (([(1:ℚ)/2, 1/2].sum = 1) ∧ (([0] : List ℕ) ≠ []) ∧
      ([(1:ℚ)/2, 1/2].head? ≠ some 1)) ∧
    (pairwiseWeightedSimilarity [[(1:ℚ)]] ([0] : List ℕ) (fun _ => some [[1]])
        [1/2, 1/2] = Except.error WErr.weightSum ↔ [(1:ℚ)/2, 1/2].sum ≠ 1) :=
  ⟨⟨by with_unfolding_all decide, by decide, by with_unfolding_all decide⟩,
    (c3_weight_sum_exact [[(1:ℚ)]] [0] (fun _ => some [[1]]) [1/2, 1/2] 1
      (by decide) (by decide) (by with_unfolding_all decide)
      ⟨rfl, by decide⟩ (by with_unfolding_all decide)
      (fun t _ => ⟨[[1]], rfl, ⟨rfl, by decide⟩,
        by with_unfolding_all decide⟩)).1⟩

lemma le_foldr_max {c : ℕ} : ∀ {l : List ℕ}, c ∈ l → c ≤ l.foldr max 0 := by
  intro l
  induction l with
  | nil => intro h; cases h
  | cons x xs ih =>
    intro h
    rw [List.foldr_cons]
    cases h with
    | head => exact le_max_left _ _
    | tail _ hmem => exact le_trans (ih hmem) (le_max_right _ _)

lemma foldr_max_le {m : ℕ} : ∀ {l : List ℕ}, (∀ c ∈ l, c ≤ m) → l.foldr max 0 ≤ m := by
  intro l
  induction l with
  | nil => intro _; exact Nat.zero_le m
  | cons x xs ih =>
    intro h
    rw [List.foldr_cons]
    exact max_le (h x (List.mem_cons_self x xs))
      (ih (fun c hc => h c (List.mem_cons_of_mem x hc)))

lemma npUnique_eq_range {labels : List ℕ} {K : ℕ}
    (hmem : ∀ c ∈ labels, c < K) (hocc : ∀ c < K, c ∈ labels) :
    npUnique labels = List.range K := by
  cases K with
  | zero =>
    have hnil : labels = [] := by
      cases labels with
      | nil => rfl
      | cons c cs => exact absurd (hmem c (List.mem_cons_self c cs)) (by omega)
    rw [hnil]
    rfl
  | succ k =>
    have hmax : labels.foldr max 0 = k := by
      refine le_antisymm (foldr_max_le ?_) (le_foldr_max (hocc k (by omega)))
      intro c hc
      exact Nat.lt_succ_iff.mp (hmem c hc)
    unfold npUnique
    rw [hmax, List.filter_eq_self]
    intro c hc
    exact List.elem_iff.mpr (hocc c (List.mem_range.mp hc))

/-- Claim C7: after label canonicalization, for every k-means labeling
in which every label in [0,K) occurs (and no label is outside [0,K)), the
returned labels have nonincreasing cluster counts, the returned centroid
row of each fiber's new label is the original centroid of the fiber's old
label, and row i of the returned centroid matrix is the centroid of a
cluster whose original count equals the count of new label i. -/
theorem c7_sort_label_canonical (centroids : Mat ℚ) (labels : List ℕ)
    (hmem : ∀ c ∈ labels, c < centroids.length)
    (hocc : ∀ c, c < centroids.length → c ∈ labels) :
    (∀ j, j + 1 < centroids.length →
      (sortLabel centroids labels).2.count (j + 1) ≤ (sortLabel centroids labels).2.count j) ∧
    (∀ f, f < labels.length →
      (sortLabel centroids labels).1.getD ((sortLabel centroids labels).2.getD f 0) []
        = centroids.getD (labels.getD f 0) []) ∧
    (∀ i, i < centroids.length → ∃ c, c < centroids.length ∧
      (sortLabel centroids labels).1.getD i [] = centroids.getD c [] ∧
      (sortLabel centroids labels).2.count i = labels.count c) := by
  have huniq := npUnique_eq_range hmem hocc
  have heq : sortLabel centroids labels =
      (let uniq := npUnique labels
       let counts := uniq.map (fun c => labels.count c)
       let sorted := List.insertionSort (fun a b => counts.getD b 0 ≤ counts.getD a 0)
         (List.range uniq.length)
       ((List.range centroids.length).map (fun i =>
          if i < sorted.length then centroids.getD (sorted.getD i 0) []
          else centroids.getD i []),
        labels.map (fun c => if c < sorted.length then sorted.indexOf c else c))) := rfl
  simp only [huniq, List.length_range] at heq
  set K := centroids.length with hK
  set cnt := (List.range K).map (fun c => labels.count c) with hcnt
  set srt := List.insertionSort (fun a b => cnt.getD b 0 ≤ cnt.getD a 0)
    (List.range K) with hsrt
  have hperm : srt.Perm (List.range K) := List.perm_insertionSort _ _
  have hlenS : srt.length = K := by rw [hperm.length_eq, List.length_range]
  have hnodup : srt.Nodup := hperm.nodup_iff.mpr (List.nodup_range K)
  have hmemS : ∀ c, c ∈ srt ↔ c < K := fun c => by rw [hperm.mem_iff, List.mem_range]
  have hsortedS : List.Sorted (fun a b => cnt.getD b 0 ≤ cnt.getD a 0) srt := by
    haveI h1 : IsTotal ℕ (fun a b => cnt.getD b 0 ≤ cnt.getD a 0) :=
      ⟨fun a b => (le_total (cnt.getD a 0) (cnt.getD b 0)).symm⟩
    haveI h2 : IsTrans ℕ (fun a b => cnt.getD b 0 ≤ cnt.getD a 0) :=
      ⟨fun _ _ _ hab hbc => le_trans hbc hab⟩
    exact List.sorted_insertionSort _ _
  have hcntD : ∀ j, j < K → cnt.getD j 0 = labels.count j := by
    intro j hj
    have h1 : j < cnt.length := by rw [hcnt, List.length_map, List.length_range]; exact hj
    rw [List.getD_eq_getElem _ _ h1]
    simp only [hcnt]
    rw [List.getElem_map, List.getElem_range]
  have hsrtD_lt : ∀ i, i < K → srt.getD i 0 < K := by
    intro i hi
    have h1 : i < srt.length := by rw [hlenS]; exact hi
    rw [List.getD_eq_getElem _ _ h1]
    exact (hmemS _).mp (List.getElem_mem h1)
  have hidx_lt : ∀ c, c < K → srt.indexOf c < K := by
    intro c hc
    rw [← hlenS]
    exact List.indexOf_lt_length.mpr ((hmemS c).mpr hc)
  have hgetIdx : ∀ c, c < K → srt.getD (srt.indexOf c) 0 = c := by
    intro c hc
    have h1 : srt.indexOf c < srt.length := by rw [hlenS]; exact hidx_lt c hc
    rw [List.getD_eq_getElem _ _ h1]
    exact List.getElem_indexOf h1
  have hidx_iff : ∀ c, c < K → ∀ j, j < K → (srt.indexOf c = j ↔ c = srt.getD j 0) := by
    intro c hc j hj
    constructor
    · intro hij
      rw [← hij]
      exact (hgetIdx c hc).symm
    · intro hcj
      have h1 : srt.indexOf c < srt.length := by rw [hlenS]; exact hidx_lt c hc
      have h2 : j < srt.length := by rw [hlenS]; exact hj
      have h3 : srt[srt.indexOf c] = srt[j] := by
        rw [List.getElem_indexOf h1, ← List.getD_eq_getElem _ 0 h2]
        exact hcj
      exact (hnodup.getElem_inj_iff).mp h3
  have hcount : ∀ j, j < K →
      ((sortLabel centroids labels).2).count j = labels.count (srt.getD j 0) := by
    intro j hj
    rw [heq]
    show (labels.map (fun c => if c < srt.length then srt.indexOf c else c)).count j
      = labels.count (srt.getD j 0)
    rw [List.count_eq_countP, List.countP_map, List.count_eq_countP]
    refine List.countP_congr ?_
    intro c hcmem
    have hc : c < K := hmem c hcmem
    simp only [Function.comp_apply, if_pos (by rw [hlenS]; exact hc : c < srt.length),
      beq_iff_eq]
    exact ⟨fun h => (hidx_iff c hc j hj).mp h,
      fun h => (hidx_iff c hc j hj).mpr h⟩
  have hncD : ∀ j, j < K →
      ((sortLabel centroids labels).1).getD j [] = centroids.getD (srt.getD j 0) [] := by
    intro j hj
    rw [heq]
    show ((List.range K).map (fun i =>
        if i < srt.length then centroids.getD (srt.getD i 0) []
        else centroids.getD i [])).getD j [] = _
    have h1 : j < ((List.range K).map (fun i =>
        if i < srt.length then centroids.getD (srt.getD i 0) []
        else centroids.getD i [])).length := by
      rw [List.length_map, List.length_range]; exact hj
    rw [List.getD_eq_getElem _ _ h1, List.getElem_map, List.getElem_range,
      if_pos (by rw [hlenS]; exact hj : j < srt.length)]
  refine ⟨?_, ?_, ?_⟩
  · intro j hj
    rw [hcount (j + 1) hj, hcount j (by omega)]
    have h1 : j < srt.length := by rw [hlenS]; omega
    have h2 : j + 1 < srt.length := by rw [hlenS]; omega
    have hrel := hsortedS.rel_get_of_lt
      (show (⟨j, h1⟩ : Fin srt.length) < ⟨j + 1, h2⟩ by exact Nat.lt_succ_self j)
    have hg1 : srt.get ⟨j, h1⟩ = srt.getD j 0 := by
      rw [List.get_eq_getElem, List.getD_eq_getElem _ _ h1]
    have hg2 : srt.get ⟨j + 1, h2⟩ = srt.getD (j + 1) 0 := by
      rw [List.get_eq_getElem, List.getD_eq_getElem _ _ h2]
    rw [hg1, hg2] at hrel
    rw [← hcntD (srt.getD (j + 1) 0) (hsrtD_lt (j + 1) hj),
      ← hcntD (srt.getD j 0) (hsrtD_lt j (by omega))]
    exact hrel
  · intro f hf
    have hc : labels.getD f 0 ∈ labels := by
      rw [List.getD_eq_getElem _ _ hf]
      exact List.getElem_mem hf
    have hcK : labels.getD f 0 < K := hmem _ hc
    have hnl : ((sortLabel centroids labels).2).getD f 0 = srt.indexOf (labels.getD f 0) := by
      rw [heq]
      show (labels.map (fun c => if c < srt.length then srt.indexOf c else c)).getD f 0 = _
      have h1 : f < (labels.map (fun c =>
          if c < srt.length then srt.indexOf c else c)).length := by
        rw [List.length_map]; exact hf
      rw [List.getD_eq_getElem _ _ h1, List.getElem_map,
        if_pos (by rw [hlenS]; exact hmem _ (List.getElem_mem hf) : labels[f] < srt.length)]
      rw [List.getD_eq_getElem _ _ hf]
    rw [hnl, hncD _ (hidx_lt _ hcK), hgetIdx _ hcK]
  · intro i hi
    exact ⟨srt.getD i 0, hsrtD_lt i hi, hncD i hi, hcount i hi⟩

/-- Claim C7, witness: the theorem instantiated at labels
[0,1,1,2,2,2] with three centroids. -/
theorem c7_sort_label_canonical_witness :
    ((∀ c ∈ ([0, 1, 1, 2, 2, 2] : List ℕ), c < ([[1], [2], [3]] : Mat ℚ).length) ∧
      (∀ c, c < ([[1], [2], [3]] : Mat ℚ).length → c ∈ ([0, 1, 1, 2, 2, 2] : List ℕ))) ∧
    (∀ j, j + 1 < ([[1], [2], [3]] : Mat ℚ).length →
      (sortLabel [[1], [2], [3]] [0, 1, 1, 2, 2, 2]).2.count (j + 1)
        ≤ (sortLabel [[1], [2], [3]] [0, 1, 1, 2, 2, 2]).2.count j) :=
  ⟨⟨by decide, by decide⟩,
    (c7_sort_label_canonical [[1], [2], [3]] [0, 1, 1, 2, 2, 2] (by decide) (by decide)).1⟩

lemma varL_nonneg (l : List ℚ) : 0 ≤ varL l := by
  unfold varL meanL
  apply div_nonneg
  · apply List.sum_nonneg
    intro x hx
    obtain ⟨y, _, hy⟩ := List.mem_map.mp hx
    rw [← hy]
    exact sq_nonneg _
  · positivity

lemma rejectb_iff_sqrt (m v x : ℚ) (hv : 0 ≤ v) :
    rejectb m v x = true ↔ (x : ℝ) < (m : ℝ) - 2 * Real.sqrt (v : ℝ) := by
  have hvR : (0 : ℝ) ≤ (v : ℝ) := by exact_mod_cast hv
  have hs : 0 ≤ Real.sqrt (v : ℝ) := Real.sqrt_nonneg _
  have hs2 : Real.sqrt (v : ℝ) ^ 2 = (v : ℝ) := Real.sq_sqrt hvR
  constructor
  · intro h
    simp only [rejectb, Bool.and_eq_true, decide_eq_true_eq] at h
    obtain ⟨h1, h2⟩ := h
    have h1R : (0 : ℝ) < (m : ℝ) - (x : ℝ) := by exact_mod_cast h1
    have h2R : 4 * (v : ℝ) < ((m : ℝ) - (x : ℝ)) ^ 2 := by exact_mod_cast h2
    by_contra hcon
    push_neg at hcon
    have hle : (m : ℝ) - (x : ℝ) ≤ 2 * Real.sqrt (v : ℝ) := by linarith
    have hsq : ((m : ℝ) - (x : ℝ)) ^ 2 ≤ (2 * Real.sqrt (v : ℝ)) ^ 2 :=
      pow_le_pow_left₀ (le_of_lt h1R) hle 2
    have : (2 * Real.sqrt (v : ℝ)) ^ 2 = 4 * (v : ℝ) := by
      rw [mul_pow, hs2]
      norm_num
    linarith
  · intro h
    have h1R : (0 : ℝ) < (m : ℝ) - (x : ℝ) := by nlinarith
    have h2R : 4 * (v : ℝ) < ((m : ℝ) - (x : ℝ)) ^ 2 := by
      have hlt : 2 * Real.sqrt (v : ℝ) < (m : ℝ) - (x : ℝ) := by linarith
      have hsq : (2 * Real.sqrt (v : ℝ)) ^ 2 < ((m : ℝ) - (x : ℝ)) ^ 2 :=
        pow_lt_pow_left₀ hlt (by positivity) (by norm_num)
      have : (2 * Real.sqrt (v : ℝ)) ^ 2 = 4 * (v : ℝ) := by
        rw [mul_pow, hs2]
        norm_num
      linarith
    simp only [rejectb, Bool.and_eq_true, decide_eq_true_eq]
    exact ⟨by exact_mod_cast h1R, by exact_mod_cast h2R⟩

/-- Claim C6 (amended): in the training path the rejection statistic is
the vector of COLUMN sums r_j = sum over i of W[i][j] (np.sum(W, 0));
fiber j is rejected iff r_j < mean(r) - 2*std(r) (std = square root of
the population variance), exactly the rejected rows and columns are
deleted from W, and the degree matrix and Laplacian are computed from the
filtered matrix. -/
theorem c6_column_sum_outlier (W : Mat ℚ) (k : ℕ)
    (eigh : Mat ℚ → List ℚ × Mat ℚ) (kmeans : Mat ℚ → ℕ → Mat ℚ × List ℕ) :
    (∀ j, j ∈ (outlierSimDetection W).2 ↔ j < (colSums W).length ∧
      (((colSums W).getD j 0 : ℚ) : ℝ) < ((meanL (colSums W) : ℚ) : ℝ)
        - 2 * Real.sqrt ((varL (colSums W) : ℚ) : ℝ)) ∧
    (outlierSimDetection W).1
      = npDeleteCols (npDeleteRows W (outlierSimDetection W).2) (outlierSimDetection W).2 ∧
    (spectralClusteringCore W k eigh kmeans).W2 = (outlierSimDetection W).1 ∧
    (spectralClusteringCore W k eigh kmeans).rejIdx = (outlierSimDetection W).2 ∧
    (spectralClusteringCore W k eigh kmeans).D
      = degreeMatrix (outlierSimDetection W).1 ∧
    (spectralClusteringCore W k eigh kmeans).L
      = matSub (degreeMatrix (outlierSimDetection W).1) (outlierSimDetection W).1 := by
  refine ⟨?_, rfl, rfl, rfl, rfl, rfl⟩
  intro j
  show j ∈ (List.range (colSums W).length).filter
      (fun j => rejectb (meanL (colSums W)) (varL (colSums W)) ((colSums W).getD j 0)) ↔ _
  rw [List.mem_filter, List.mem_range,
    rejectb_iff_sqrt _ _ _ (varL_nonneg (colSums W))]

/-- Row sums r_i = sum over j of W[i][j], the statistic as worded by the
claim (written from the spec, for comparison against the code's
`np.sum(W, 0)` column sums). -/
def rowSums (M : Mat ℚ) : List ℚ :=
  M.map (fun row => row.sum)

/-- Claim C6, counterexample to the row-sum wording: on the 10x10
matrix whose first column is zero and all other entries 1, the code
rejects index 0 (column sums (0,10,...,10)), yet the row sums are all 9,
so the claimed row-sum criterion r_0 < mean(r) - 2*std(r) does not
hold. -/
theorem c6_row_sum_counterexample :
    0 ∈ (outlierSimDetection (List.replicate 10 ((0:ℚ) :: List.replicate 9 1))).2 ∧
      ¬ (((rowSums (List.replicate 10 ((0:ℚ) :: List.replicate 9 1))).getD 0 0 : ℚ) < 
          ((meanL (rowSums (List.replicate 10 ((0:ℚ) :: List.replicate 9 1))) : ℚ) : ℝ)
            - 2 * Real.sqrt ((varL (rowSums (List.replicate 10 ((0:ℚ) :: List.replicate 9 1))) : ℚ) : ℝ)) := by
  constructor
  · with_unfolding_all decide
  · have h1 : (rowSums (List.replicate 10 ((0:ℚ) :: List.replicate 9 1))).getD 0 0 = 9 := by
      with_unfolding_all decide
    have h2 : meanL (rowSums (List.replicate 10 ((0:ℚ) :: List.replicate 9 1))) = 9 := by
      with_unfolding_all decide
    have h3 : varL (rowSums (List.replicate 10 ((0:ℚ) :: List.replicate 9 1))) = 0 := by
      with_unfolding_all decide
    rw [h1, h2, h3]
    rw [Rat.cast_zero, Real.sqrt_zero]
    norm_num

lemma sum_map_range_succ (n : ℕ) (g : ℕ → ℚ) :
    ((List.range (n + 1)).map g).sum = ((List.range n).map g).sum + g n := by
  rw [List.range_succ, List.map_append, List.sum_append]
  simp

lemma sum_ite_single (m : ℕ) (g : ℕ → ℚ) :
    ∀ n, m < n → ((List.range n).map (fun p => if p = m then g p else 0)).sum = g m := by
  intro n
  induction n with
  | zero => intro h; omega
  | succ n ih =>
    intro h
    rw [sum_map_range_succ]
    rcases Nat.lt_or_ge m n with hm | hm
    · rw [ih hm, if_neg (by omega)]
      ring
    · have hmn : m = n := by omega
      rw [if_pos hmn.symm, ← hmn]
      have hzero : ((List.range m).map (fun p => if p = m then g p else 0)).sum = 0 := by
        refine List.sum_eq_zero ?_
        intro x hx
        obtain ⟨p, hp, hpx⟩ := List.mem_map.mp hx
        rw [← hpx, if_neg (by exact Nat.ne_of_lt (List.mem_range.mp hp))]
      rw [hzero, zero_add]

lemma dotProd_eq_sum_range (x y : List ℚ) (hlen : x.length = y.length) :
    dotProd x y = ((List.range x.length).map (fun p => x.getD p 0 * y.getD p 0)).sum := by
  induction x generalizing y with
  | nil => simp [dotProd]
  | cons a xs ih =>
    cases y with
    | nil => simp at hlen
    | cons b ys =>
      simp only [List.length_cons] at hlen
      have hxy := ih ys (by omega)
      simp only [dotProd, List.zipWith_cons_cons, List.sum_cons] at hxy ⊢
      rw [show (a :: xs).length = xs.length + 1 from rfl]
      rw [List.range_succ_eq_map, List.map_cons, List.sum_cons]
      simp only [List.getD_cons_zero]
      rw [hxy]
      congr 1
      rw [List.map_map]
      refine congrArg List.sum (List.map_congr_left ?_)
      intro p _
      simp [List.getD_cons_succ]

lemma colVals_getD {M : Mat ℚ} {p : ℕ} (hp : p < M.length) (j : ℕ) :
    (colVals M j).getD p 0 = matEntry M p j := by
  have h1 : p < (colVals M j).length := by rw [colVals, List.length_map]; exact hp
  rw [List.getD_eq_getElem _ _ h1]
  simp only [colVals]
  rw [List.getElem_map]
  rw [matEntry, List.getD_eq_getElem _ _ hp]

lemma matMul_entry {A B : Mat ℚ} {a j : ℕ} (ha : a < A.length)
    (hj : j < (B.headD []).length) (hrow : (A.getD a []).length = B.length) :
    matEntry (matMul A B) a j
      = ((List.range B.length).map
          (fun p => matEntry A a p * matEntry B p j)).sum := by
  have hA1 : a < (A.map (fun row => (List.range ((B.headD []).length)).map
      (fun j => dotProd row (colVals B j)))).length := by
    rw [List.length_map]; exact ha
  have hj2 : j < ((List.range ((B.headD []).length)).map
      (fun j => dotProd (A.getD a []) (colVals B j))).length := by
    rw [List.length_map, List.length_range]; exact hj
  simp only [matEntry, matMul]
  rw [List.getD_eq_getElem _ _ hA1, List.getElem_map]
  rw [show A[a] = A.getD a [] from (List.getD_eq_getElem _ _ ha).symm]
  rw [List.getD_eq_getElem _ _ hj2, List.getElem_map, List.getElem_range]
  have hcol : (colVals B j).length = B.length := by rw [colVals, List.length_map]
  rw [dotProd_eq_sum_range _ _ (by rw [hcol]; exact hrow), hrow]
  refine congrArg List.sum (List.map_congr_left ?_)
  intro p hp
  have hpB : p < B.length := List.mem_range.mp hp
  rw [colVals_getD hpB]
  rfl

lemma diagMat_entry {l : List ℚ} {p j : ℕ} (hp : p < l.length) (hj : j < l.length) :
    matEntry (diagMat l) p j = if p = j then l.getD p 0 else 0 := by
  have h1 : p < ((List.range l.length).map (fun i =>
      (List.range l.length).map (fun j => if i = j then l.getD i 0 else 0))).length := by
    rw [List.length_map, List.length_range]; exact hp
  have h2 : j < ((List.range l.length).map
      (fun j2 => if p = j2 then l.getD p 0 else 0)).length := by
    rw [List.length_map, List.length_range]; exact hj
  simp only [matEntry, diagMat]
  rw [List.getD_eq_getElem _ _ h1, List.getElem_map, List.getElem_range,
    List.getD_eq_getElem _ _ h2, List.getElem_map, List.getElem_range]

lemma matMul_length (A B : Mat ℚ) : (matMul A B).length = A.length := by
  rw [matMul, List.length_map]

lemma matMul_shape (A B : Mat ℚ) : MatShape (matMul A B) A.length ((B.headD []).length) := by
  refine ⟨matMul_length A B, ?_⟩
  intro row hrow
  obtain ⟨r0, _, heq⟩ := List.mem_map.mp hrow
  rw [← heq, List.length_map, List.length_range]

lemma headD_eq_getD {α : Type} (l : List α) (d : α) : l.headD d = l.getD 0 d := by
  cases l <;> rfl

lemma diagMat_length (l : List ℚ) : (diagMat l).length = l.length := by
  rw [diagMat, List.length_map, List.length_range]

lemma diagMat_headD {l : List ℚ} (hl : l ≠ []) : ((diagMat l).headD []).length = l.length := by
  have hpos : 0 < l.length := List.length_pos.mpr hl
  have h0 : 0 < (diagMat l).length := by rw [diagMat_length]; exact hpos
  rw [headD_eq_getD, List.getD_eq_getElem _ _ h0]
  simp only [diagMat]
  rw [List.getElem_map, List.length_map, List.length_range]

lemma vqGo_spec (row : List ℚ) (centroids : Mat ℚ) :
    ∀ (ps : List (ℕ × List ℚ)) (best : ℕ),
      (∀ p ∈ ps, p.2 = centroids.getD p.1 []) →
      (vqGo row centroids ps best = best ∨ vqGo row centroids ps best ∈ ps.map Prod.fst) ∧
      sqDist row (centroids.getD (vqGo row centroids ps best) [])
        ≤ sqDist row (centroids.getD best []) ∧
      ∀ p ∈ ps, sqDist row (centroids.getD (vqGo row centroids ps best) []) ≤ sqDist row p.2 := by
  intro ps
  induction ps with
  | nil =>
    intro best _
    exact ⟨Or.inl rfl, le_refl _, fun p hp => absurd hp (List.not_mem_nil p)⟩
  | cons p ps ih =>
    intro best hps
    have hp2 := hps p (List.mem_cons_self p ps)
    have htail : ∀ q ∈ ps, q.2 = centroids.getD q.1 [] :=
      fun q hq => hps q (List.mem_cons_of_mem p hq)
    by_cases hlt : sqDist row p.2 < sqDist row (centroids.getD best [])
    · have hstep : vqGo row centroids (p :: ps) best = vqGo row centroids ps p.1 := by
        rw [vqGo, if_pos hlt]
      obtain ⟨hmem, hle, hall⟩ := ih p.1 htail
      rw [hstep]
      refine ⟨?_, ?_, ?_⟩
      · rcases hmem with h | h
        · exact Or.inr (by rw [List.map_cons, h]; exact List.mem_cons_self _ _)
        · exact Or.inr (by rw [List.map_cons]; exact List.mem_cons_of_mem _ h)
      · calc sqDist row (centroids.getD (vqGo row centroids ps p.1) [])
            ≤ sqDist row (centroids.getD p.1 []) := hle
          _ = sqDist row p.2 := by rw [← hp2]
          _ ≤ sqDist row (centroids.getD best []) := le_of_lt hlt
      · intro q hq
        cases hq with
        | head =>
          calc sqDist row (centroids.getD (vqGo row centroids ps p.1) [])
              ≤ sqDist row (centroids.getD p.1 []) := hle
            _ = sqDist row p.2 := by rw [← hp2]
        | tail _ hq2 => exact hall q hq2
    · have hstep : vqGo row centroids (p :: ps) best = vqGo row centroids ps best := by
        rw [vqGo, if_neg hlt]
      obtain ⟨hmem, hle, hall⟩ := ih best htail
      rw [hstep]
      refine ⟨?_, hle, ?_⟩
      · rcases hmem with h | h
        · exact Or.inl h
        · exact Or.inr (by rw [List.map_cons]; exact List.mem_cons_of_mem _ h)
      · intro q hq
        cases hq with
        | head =>
          push_neg at hlt
          exact le_trans hle hlt
        | tail _ hq2 => exact hall q hq2

lemma vqCode_spec (row : List ℚ) (centroids : Mat ℚ) (hne : centroids ≠ []) :
    vqCode row centroids < centroids.length ∧
    ∀ j, j < centroids.length →
      sqDist row (centroids.getD (vqCode row centroids) [])
        ≤ sqDist row (centroids.getD j []) := by
  have henum : ∀ p ∈ centroids.enum, p.2 = centroids.getD p.1 [] := by
    intro p hp
    rw [List.mem_iff_getElem] at hp
    obtain ⟨i, hi, heq⟩ := hp
    have hi2 : i < centroids.length := by
      rw [List.enum_length] at hi
      exact hi
    rw [← heq, List.getElem_enum, List.getD_eq_getElem _ _ hi2]
  obtain ⟨hmem, _, hall⟩ := vqGo_spec row centroids centroids.enum 0 henum
  have hpos : 0 < centroids.length := List.length_pos.mpr hne
  constructor
  · rcases hmem with h | h
    · rw [vqCode, h]; exact hpos
    · rw [List.enum_map_fst] at h
      exact List.mem_range.mp (by rw [vqCode]; exact h)
  · intro j hj
    have hjmem : (j, centroids.getD j []) ∈ centroids.enum := by
      have hj2 : j < centroids.enum.length := by rw [List.enum_length]; exact hj
      have : centroids.enum[j] = (j, centroids[j]) := List.getElem_enum _ _ hj2
      rw [List.mem_iff_getElem]
      exact ⟨j, hj2, by rw [this, List.getD_eq_getElem _ _ hj]⟩
    have := hall (j, centroids.getD j []) hjmem
    exact this

lemma slice_take_entry (r : List ℚ) (k c : ℕ) (hc : c < k) (hc2 : c + 1 < r.length) :
    ((r.drop 1).take k).getD c 0 = r.getD (c + 1) 0 := by
  have h1 : c < ((r.drop 1).take k).length := by
    rw [List.length_take, List.length_drop]
    omega
  have h2 : c < (r.drop 1).length := by
    rw [List.length_drop]
    omega
  rw [List.getD_eq_getElem _ _ h1, List.getElem_take, List.getElem_drop,
    List.getD_eq_getElem _ _ hc2]
  congr 1
  omega

/-- Claim C8: in the extension path (generic branch K <= N_new,
K < N_prior), the new embedding entry (f, c) equals
(sum over p of W[f][p] * U[p][c+1]) * (1 / eigval[c+1]) — i.e. the real
part of W * U * diag(1/eigval) with the first column dropped and the next
K columns taken (every quantity is real in this model, so taking the real
part is the identity) — each new fiber's label is an index of a prior
centroid minimizing the squared (equivalently Euclidean) distance to the
fiber's embedding row, and the prior centroids are returned unchanged. -/
theorem c8_prior_embedding_nearest (W U : Mat ℚ) (eigval : List ℚ)
    (priorCentroids : Mat ℚ) (Nnew M : ℕ)
    (hW : MatShape W Nnew M) (hU : MatShape U M M) (hev : eigval.length = M)
    (hk1 : priorCentroids.length ≤ Nnew) (hk2 : priorCentroids.length < M) :
    (∀ f c, f < Nnew → c < priorCentroids.length →
      matEntry (spectralPriorCore W U eigval priorCentroids).1 f c
        = ((List.range M).map (fun p => matEntry W f p * matEntry U p (c + 1))).sum
            * (1 / eigval.getD (c + 1) 0)) ∧
    (priorCentroids ≠ [] → ∀ f, f < Nnew →
      (spectralPriorCore W U eigval priorCentroids).2.1.getD f 0 < priorCentroids.length ∧
      ∀ j, j < priorCentroids.length →
        sqDist ((spectralPriorCore W U eigval priorCentroids).1.getD f [])
            (priorCentroids.getD
              ((spectralPriorCore W U eigval priorCentroids).2.1.getD f 0) [])
          ≤ sqDist ((spectralPriorCore W U eigval priorCentroids).1.getD f [])
              (priorCentroids.getD j [])) ∧
    (spectralPriorCore W U eigval priorCentroids).2.2 = priorCentroids := by
  set k := priorCentroids.length with hk
  set invl := eigval.map (fun x => 1 / x) with hinvl
  set nE := matMul (matMul W U) (diagMat invl) with hnE
  have hM1 : 0 < M := by omega
  have hUne : U ≠ [] := by
    intro hcon
    rw [hcon] at hU
    have := hU.1
    simp at this
    omega
  have hUheadD : (U.headD []).length = M := by
    cases hU0 : U with
    | nil => exact absurd hU0 hUne
    | cons r rs =>
      have : r ∈ U := by rw [hU0]; exact List.mem_cons_self r rs
      simpa [hU0] using hU.2 r this
  have hinvlen : invl.length = M := by rw [hinvl, List.length_map, hev]
  have hinvne : invl ≠ [] := by
    intro hcon
    rw [hcon] at hinvlen
    simp at hinvlen
    omega
  have hWUshape : MatShape (matMul W U) Nnew M := by
    have := matMul_shape W U
    rw [hW.1, hUheadD] at this
    exact this
  have hDheadD : ((diagMat invl).headD []).length = M := by
    rw [diagMat_headD hinvne, hinvlen]
  have hnEshape : MatShape nE Nnew M := by
    have := matMul_shape (matMul W U) (diagMat invl)
    rw [hWUshape.1, hDheadD] at this
    exact this
  have hnElen : nE.length = Nnew := hnEshape.1
  have hcore : spectralPriorCore W U eigval priorCentroids
      = (sliceCols nE 1 (k + 1), vqCodes (sliceCols nE 1 (k + 1)) priorCentroids,
         priorCentroids) := by
    simp only [spectralPriorCore, ← hinvl, ← hnE, ← hk]
    rw [if_neg (by omega), if_neg (by rw [hU.1]; omega)]
  have hemvec_entry : ∀ f c, f < Nnew → c < k →
      matEntry (sliceCols nE 1 (k + 1)) f c
        = ((List.range M).map (fun p => matEntry W f p * matEntry U p (c + 1))).sum
            * (1 / eigval.getD (c + 1) 0) := by
    intro f c hf hc
    have hfE : f < nE.length := by rw [hnElen]; exact hf
    have hrowlen : (nE.getD f []).length = M := matShape_row hnEshape (by rw [← hnElen]; exact hfE)
    have hc1 : c + 1 < M := by omega
    have hslice : matEntry (sliceCols nE 1 (k + 1)) f c = matEntry nE f (c + 1) := by
      have hfS : f < (sliceCols nE 1 (k + 1)).length := by
        rw [sliceCols, List.length_map]
        exact hfE
      unfold matEntry
      have hrow : (sliceCols nE 1 (k + 1)).getD f []
          = ((nE.getD f []).drop 1).take (k + 1 - 1) := by
        have hm1 : f < (List.map (fun row => (row.drop 1).take (k + 1 - 1)) nE).length := by
          rw [List.length_map]
          exact hfE
        rw [sliceCols, List.getD_eq_getElem _ _ hm1, List.getElem_map,
          List.getD_eq_getElem _ _ hfE]
      rw [hrow]
      simp only [Nat.add_sub_cancel]
      exact slice_take_entry _ _ _ hc (by rw [hrowlen]; exact hc1)
    rw [hslice]
    have hWUrow : ((matMul W U).getD f []).length = (diagMat invl).length := by
      rw [matShape_row hWUshape hf, diagMat_length, hinvlen]
    have hstep1 : matEntry nE f (c + 1)
        = ((List.range (diagMat invl).length).map
            (fun p => matEntry (matMul W U) f p * matEntry (diagMat invl) p (c + 1))).sum := by
      rw [hnE]
      exact matMul_entry (by rw [hWUshape.1]; exact hf)
        (by rw [hDheadD]; exact hc1) hWUrow
    simp only [diagMat_length, hinvlen] at hstep1
    rw [hstep1]
    have hstep2 : ((List.range M).map
          (fun p => matEntry (matMul W U) f p * matEntry (diagMat invl) p (c + 1))).sum
        = matEntry (matMul W U) f (c + 1) * invl.getD (c + 1) 0 := by
      have hcongr : (List.range M).map
            (fun p => matEntry (matMul W U) f p * matEntry (diagMat invl) p (c + 1))
          = (List.range M).map (fun p =>
              if p = c + 1 then matEntry (matMul W U) f p * invl.getD p 0 else 0) := by
        refine List.map_congr_left ?_
        intro p hp
        have hpM : p < M := List.mem_range.mp hp
        rw [diagMat_entry (by rw [hinvlen]; exact hpM) (by rw [hinvlen]; exact hc1)]
        by_cases hpc : p = c + 1
        · rw [if_pos hpc, if_pos hpc]
        · rw [if_neg hpc, if_neg hpc, mul_zero]
      rw [hcongr, sum_ite_single (c + 1) _ M hc1]
    rw [hstep2]
    have hWrow : (W.getD f []).length = U.length := by
      rw [matShape_row hW hf, hU.1]
    have hstep3 : matEntry (matMul W U) f (c + 1)
        = ((List.range U.length).map
            (fun p => matEntry W f p * matEntry U p (c + 1))).sum := by
      exact matMul_entry (by rw [hW.1]; exact hf) (by rw [hUheadD]; exact hc1) hWrow
    have hinvD : invl.getD (c + 1) 0 = 1 / eigval.getD (c + 1) 0 := by
      have hc2 : c + 1 < eigval.length := by rw [hev]; exact hc1
      have hc4 : c + 1 < (eigval.map (fun x => 1 / x)).length := by
        rw [List.length_map]
        exact hc2
      show (eigval.map (fun x => 1 / x)).getD (c + 1) 0 = _
      rw [List.getD_eq_getElem _ _ hc4, List.getElem_map, List.getD_eq_getElem _ _ hc2]
    rw [hstep3, hinvD, hU.1]
  refine ⟨?_, ?_, ?_⟩
  · intro f c hf hc
    rw [hcore]
    exact hemvec_entry f c hf hc
  · intro hne f hf
    rw [hcore]
    have hslice_len : (sliceCols nE 1 (k + 1)).length = Nnew := by
      rw [sliceCols, List.length_map, hnElen]
    have hfS : f < (sliceCols nE 1 (k + 1)).length := by rw [hslice_len]; exact hf
    have hrowD : (vqCodes (sliceCols nE 1 (k + 1)) priorCentroids).getD f 0
        = vqCode ((sliceCols nE 1 (k + 1)).getD f []) priorCentroids := by
      have hm1 : f < (List.map (fun row => vqCode row priorCentroids)
          (sliceCols nE 1 (k + 1))).length := by
        rw [List.length_map]
        exact hfS
      rw [vqCodes, List.getD_eq_getElem _ _ hm1, List.getElem_map,
        List.getD_eq_getElem _ _ hfS]
    show (vqCodes (sliceCols nE 1 (k + 1)) priorCentroids).getD f 0 < k ∧ _
    rw [hrowD]
    exact vqCode_spec _ _ hne
  · rw [hcore]

/-- Claim C8, witness: the theorem instantiated at a concrete 2x3
affinity, the 3x3 identity eigenbasis and two prior centroids. -/
theorem c8_prior_embedding_nearest_witness :
    (([[0, 0], [1, 1]] : Mat ℚ).length ≤ 2 ∧ ([[0, 0], [1, 1]] : Mat ℚ).length < 3) ∧
    (spectralPriorCore [[1, 0, 0], [0, 1, 0]] [[1, 0, 0], [0, 1, 0], [0, 0, 1]]
        [1, 1, 2] [[0, 0], [1, 1]]).2.2 = [[0, 0], [1, 1]] :=
  ⟨⟨by decide, by decide⟩,
    (c8_prior_embedding_nearest [[1, 0, 0], [0, 1, 0]] [[1, 0, 0], [0, 1, 0], [0, 0, 1]]
      [1, 1, 2] [[0, 0], [1, 1]] 2 3 ⟨rfl, by decide⟩ ⟨rfl, by decide⟩ rfl
      (by decide) (by decide)).2.2⟩

lemma foldl_min_le {α : Type} [LinearOrderedField α] :
    ∀ (l : List α) (a : α), l.foldl min a ≤ a := by
  intro l
  induction l with
  | nil => intro a; exact le_refl a
  | cons x xs ih =>
    intro a
    rw [List.foldl_cons]
    exact le_trans (ih (min a x)) (min_le_left a x)

lemma foldl_min_le_of_mem {α : Type} [LinearOrderedField α] :
    ∀ (l : List α) (a x : α), x ∈ l → l.foldl min a ≤ x := by
  intro l
  induction l with
  | nil => intro a x hx; cases hx
  | cons y ys ih =>
    intro a x hx
    rw [List.foldl_cons]
    cases hx with
    | head => exact le_trans (foldl_min_le ys (min a y)) (min_le_right a y)
    | tail _ hmem => exact ih (min a y) x hmem

lemma listMin_le {α : Type} [LinearOrderedField α] {l : List α} {x : α} (hx : x ∈ l) :
    listMin l ≤ x := by
  cases l with
  | nil => cases hx
  | cons y ys =>
    cases hx with
    | head => exact foldl_min_le ys x
    | tail _ hmem => exact foldl_min_le_of_mem ys y x hmem

lemma foldl_max_ge {α : Type} [LinearOrderedField α] :
    ∀ (l : List α) (a : α), a ≤ l.foldl max a := by
  intro l
  induction l with
  | nil => intro a; exact le_refl a
  | cons x xs ih =>
    intro a
    rw [List.foldl_cons]
    exact le_trans (le_max_left a x) (ih (max a x))

lemma foldl_max_ge_of_mem {α : Type} [LinearOrderedField α] :
    ∀ (l : List α) (a x : α), x ∈ l → x ≤ l.foldl max a := by
  intro l
  induction l with
  | nil => intro a x hx; cases hx
  | cons y ys ih =>
    intro a x hx
    rw [List.foldl_cons]
    cases hx with
    | head => exact le_trans (le_max_right a y) (foldl_max_ge ys (max a y))
    | tail _ hmem => exact ih (max a y) x hmem

lemma listMax_ge {α : Type} [LinearOrderedField α] {l : List α} {x : α} (hx : x ∈ l) :
    x ≤ listMax l := by
  cases l with
  | nil => cases hx
  | cons y ys =>
    cases hx with
    | head => exact foldl_max_ge ys x
    | tail _ hmem => exact foldl_max_ge_of_mem ys y x hmem

lemma foldl_min_mem {α : Type} [LinearOrderedField α] :
    ∀ (l : List α) (a : α), l.foldl min a = a ∨ l.foldl min a ∈ l := by
  intro l
  induction l with
  | nil => intro a; exact Or.inl rfl
  | cons x xs ih =>
    intro a
    rw [List.foldl_cons]
    rcases ih (min a x) with h | h
    · rcases min_choice a x with hm | hm
      · exact Or.inl (by rw [h, hm])
      · exact Or.inr (by rw [h, hm]; exact List.mem_cons_self x xs)
    · exact Or.inr (List.mem_cons_of_mem x h)

lemma listMin_mem {α : Type} [LinearOrderedField α] {l : List α} (hl : l ≠ []) :
    listMin l ∈ l := by
  cases l with
  | nil => exact absurd rfl hl
  | cons y ys =>
    show ys.foldl min y ∈ y :: ys
    rcases foldl_min_mem ys y with h | h
    · rw [h]
      exact List.mem_cons_self y ys
    · exact List.mem_cons_of_mem y h

lemma matEntry_minMaxScale {α : Type} [LinearOrderedField α] [DecidableEq α]
    {M : Mat α} {i j : ℕ} (hi : i < M.length) (hj : j < (M.getD i []).length) :
    matEntry (minMaxScale M) i j = scaleEntry M j (matEntry M i j) := by
  have hi2 : i < (M.map (fun row => row.enum.map (fun p => scaleEntry M p.1 p.2))).length := by
    rw [List.length_map]
    exact hi
  rw [List.getD_eq_getElem _ _ hi] at hj
  have hj2 : j < (M[i].enum.map (fun p => scaleEntry M p.1 p.2)).length := by
    rw [List.length_map, List.enum_length]
    exact hj
  have hj3 : j < M[i].enum.length := by rw [List.enum_length]; exact hj
  simp only [matEntry, minMaxScale]
  rw [List.getD_eq_getElem _ _ hi2, List.getElem_map, List.getD_eq_getElem _ _ hj2,
    List.getElem_map, List.getElem_enum, List.getD_eq_getElem _ _ hi,
    List.getD_eq_getElem _ _ hj]

lemma matEntry_minMaxScale_oob {α : Type} [LinearOrderedField α] [DecidableEq α]
    {M : Mat α} {i j : ℕ} (h : ¬ j < (M.getD i []).length) :
    matEntry (minMaxScale M) i j = 0 := by
  by_cases hi : i < M.length
  · have hi2 : i < (M.map (fun row => row.enum.map (fun p => scaleEntry M p.1 p.2))).length := by
      rw [List.length_map]
      exact hi
    rw [List.getD_eq_getElem _ _ hi] at h
    simp only [matEntry, minMaxScale]
    rw [List.getD_eq_getElem _ _ hi2, List.getElem_map]
    refine List.getD_eq_default _ _ ?_
    simp only [List.length_map, List.enum_length]
    omega
  · simp only [matEntry, minMaxScale]
    rw [List.getD_eq_default (M.map (fun row => row.enum.map (fun p => scaleEntry M p.1 p.2)))
      ([] : List α) (by rw [List.length_map]; omega)]
    rfl

lemma matEntry_mem_colVals {α : Type} [LinearOrderedField α]
    {M : Mat α} {i : ℕ} (hi : i < M.length) (j : ℕ) :
    matEntry M i j ∈ colVals M j := by
  rw [matEntry, colVals]
  refine List.mem_map.mpr ⟨M.getD i [], ?_, rfl⟩
  rw [List.getD_eq_getElem _ _ hi]
  exact List.getElem_mem hi

lemma colVals_all_nonneg {α : Type} [LinearOrderedField α]
    {M : Mat α} (hM : ∀ i j, 0 ≤ matEntry M i j) (j : ℕ) :
    ∀ x ∈ colVals M j, 0 ≤ x := by
  intro x hx
  obtain ⟨row, hrow, heq⟩ := List.mem_map.mp hx
  obtain ⟨i, hi, hrowi⟩ := List.mem_iff_getElem.mp hrow
  have : matEntry M i j = x := by
    rw [matEntry, List.getD_eq_getElem _ _ hi, hrowi, heq]
  rw [← this]
  exact hM i j

lemma scaleEntry_nonneg {α : Type} [LinearOrderedField α] [DecidableEq α]
    {M : Mat α} {j : ℕ} {x : α} (hx : x ∈ colVals M j) :
    0 ≤ scaleEntry M j x := by
  have hmn : listMin (colVals M j) ≤ x := listMin_le hx
  have hmx : x ≤ listMax (colVals M j) := listMax_ge hx
  show 0 ≤ (x - listMin (colVals M j)) /
    (if listMax (colVals M j) = listMin (colVals M j) then 1
      else listMax (colVals M j) - listMin (colVals M j))
  by_cases heq : listMax (colVals M j) = listMin (colVals M j)
  · rw [if_pos heq, div_one]
    linarith
  · rw [if_neg heq]
    refine div_nonneg (by linarith) ?_
    have : listMin (colVals M j) ≤ listMax (colVals M j) := le_trans hmn hmx
    have hne2 : listMin (colVals M j) < listMax (colVals M j) :=
      lt_of_le_of_ne this (fun hcon => heq hcon.symm)
    linarith

lemma minMaxScale_nonneg {α : Type} [LinearOrderedField α] [DecidableEq α]
    {M : Mat α} (_hM : ∀ i j, 0 ≤ matEntry M i j) (i j : ℕ) :
    0 ≤ matEntry (minMaxScale M) i j := by
  by_cases hj : j < (M.getD i []).length
  · have hi : i < M.length := by
      by_contra hcon
      rw [List.getD_eq_default _ _ (by omega)] at hj
      simp at hj
    rw [matEntry_minMaxScale hi hj]
    exact scaleEntry_nonneg (matEntry_mem_colVals hi j)
  · rw [matEntry_minMaxScale_oob hj]

lemma minMaxScale_diag_zero {α : Type} [LinearOrderedField α] [DecidableEq α]
    {M : Mat α} (hM : ∀ i j, 0 ≤ matEntry M i j) (hd : ∀ i, matEntry M i i = 0) (i : ℕ) :
    matEntry (minMaxScale M) i i = 0 := by
  by_cases hj : i < (M.getD i []).length
  · have hi : i < M.length := by
      by_contra hcon
      rw [List.getD_eq_default _ _ (by omega)] at hj
      simp at hj
    rw [matEntry_minMaxScale hi hj, hd i]
    have hmem : (0 : α) ∈ colVals M i := by
      have := matEntry_mem_colVals hi i
      rw [hd i] at this
      exact this
    have hmn0 : listMin (colVals M i) = 0 :=
      le_antisymm (listMin_le hmem)
        (colVals_all_nonneg hM i (listMin (colVals M i))
          (listMin_mem (List.ne_nil_of_mem hmem)))
    show ((0 : α) - listMin (colVals M i)) /
        (if listMax (colVals M i) = listMin (colVals M i) then 1
          else listMax (colVals M i) - listMin (colVals M i)) = 0
    rw [hmn0, sub_zero]
    exact zero_div _
  · exact matEntry_minMaxScale_oob hj

lemma pnorm_nonneg (v : Pt) : 0 ≤ pnorm v := Real.sqrt_nonneg _

lemma sum_zipWith_pnorm_nonneg :
    ∀ (f g : List Pt), 0 ≤ (List.zipWith (fun a b => pnorm (psub a b)) f g).sum := by
  intro f
  induction f with
  | nil => intro g; simp
  | cons a fs ih =>
    intro g
    cases g with
    | nil => simp
    | cons b gs =>
      rw [List.zipWith_cons_cons, List.sum_cons]
      have h1 := pnorm_nonneg (psub a b)
      have h2 := ih gs
      linarith

lemma dForward_nonneg (f g : List Pt) : 0 ≤ dForward f g := by
  unfold dForward
  refine div_nonneg (sum_zipWith_pnorm_nonneg f g) ?_
  exact Nat.cast_nonneg f.length

lemma fiberDistance_nonneg (f g : List Pt) : 0 ≤ fiberDistance f g :=
  le_min (dForward_nonneg f g) (dForward_nonneg f g.reverse)

lemma pnorm_zero_pt (a : Pt) : pnorm (psub a a) = 0 := by
  unfold pnorm psub
  simp [Real.sqrt_eq_zero']

lemma dForward_self (f : List Pt) : dForward f f = 0 := by
  unfold dForward
  have hsum : (List.zipWith (fun a b => pnorm (psub a b)) f f).sum = 0 := by
    induction f with
    | nil => simp
    | cons a fs ih =>
      rw [List.zipWith_cons_cons, List.sum_cons, ih, pnorm_zero_pt, add_zero]
  rw [hsum, zero_div]

lemma fiberDistance_self (f : List Pt) : fiberDistance f f = 0 := by
  unfold fiberDistance
  rw [dForward_self]
  exact min_eq_left (dForward_nonneg f f.reverse)

lemma rawDistMatrix_entry {fibers : List (List Pt)} {i j : ℕ}
    (hi : i < fibers.length) (hj : j < fibers.length) :
    matEntry (rawDistMatrix fibers) i j
      = fiberDistance (fibers.getD (min i j) []) (fibers.getD (max i j) []) := by
  have h1 : i < ((List.range fibers.length).map (fun a =>
      (List.range fibers.length).map (fun b =>
        fiberDistance (fibers.getD (min a b) []) (fibers.getD (max a b) [])))).length := by
    rw [List.length_map, List.length_range]
    exact hi
  have h2 : j < ((List.range fibers.length).map (fun b =>
      fiberDistance (fibers.getD (min i b) []) (fibers.getD (max i b) []))).length := by
    rw [List.length_map, List.length_range]
    exact hj
  simp only [matEntry, rawDistMatrix]
  rw [List.getD_eq_getElem _ _ h1, List.getElem_map, List.getElem_range,
    List.getD_eq_getElem _ _ h2, List.getElem_map, List.getElem_range]

lemma rawDistMatrix_entry_oob {fibers : List (List Pt)} {i j : ℕ}
    (h : ¬ (i < fibers.length ∧ j < fibers.length)) :
    matEntry (rawDistMatrix fibers) i j = 0 := by
  by_cases hi : i < fibers.length
  · have hj : fibers.length ≤ j := by omega
    have h1 : i < ((List.range fibers.length).map (fun a =>
        (List.range fibers.length).map (fun b =>
          fiberDistance (fibers.getD (min a b) []) (fibers.getD (max a b) [])))).length := by
      rw [List.length_map, List.length_range]
      exact hi
    simp only [matEntry, rawDistMatrix]
    rw [List.getD_eq_getElem _ _ h1, List.getElem_map]
    refine List.getD_eq_default _ _ ?_
    simp only [List.length_map, List.length_range]
    exact hj
  · simp only [matEntry, rawDistMatrix]
    rw [List.getD_eq_default ((List.range fibers.length).map (fun a =>
        (List.range fibers.length).map (fun b =>
          fiberDistance (fibers.getD (min a b) []) (fibers.getD (max a b) []))))
      ([] : List ℝ) (by rw [List.length_map, List.length_range]; omega)]
    rfl

lemma rawDistMatrix_nonneg (fibers : List (List Pt)) (i j : ℕ) :
    0 ≤ matEntry (rawDistMatrix fibers) i j := by
  by_cases h : i < fibers.length ∧ j < fibers.length
  · rw [rawDistMatrix_entry h.1 h.2]
    exact fiberDistance_nonneg _ _
  · rw [rawDistMatrix_entry_oob h]

lemma rawDistMatrix_diag (fibers : List (List Pt)) (i : ℕ) :
    matEntry (rawDistMatrix fibers) i i = 0 := by
  by_cases hi : i < fibers.length
  · rw [rawDistMatrix_entry hi hi, min_self, max_self]
    exact fiberDistance_self _
  · exact rawDistMatrix_entry_oob (by omega)

/-- Claim C1 (amended): for every FiberStore (with at least one fiber, so
the diagonal guard passes), the pairwise geometric distance matrix
produced after per-column min-max normalization has non-negative entries
and zero diagonal.  The symmetry asserted by the original claim fails:
see c1_symmetry_counterexample. -/
theorem c1_normalized_distance (fibers : List (List Pt)) (h : 1 ≤ fibers.length) :
    ∃ M, pairwiseDistance_matrix fibers = some M ∧
      (∀ i j, 0 ≤ matEntry M i j) ∧ (∀ i, matEntry M i i = 0) := by
  refine ⟨minMaxScale (rawDistMatrix fibers), ?_, ?_, ?_⟩
  · unfold pairwiseDistance_matrix
    have hne : minMaxScale (rawDistMatrix fibers) ≠ [] := by
      intro hcon
      have : (minMaxScale (rawDistMatrix fibers)).length = 0 := by rw [hcon]; rfl
      rw [minMaxScale, List.length_map, rawDistMatrix, List.length_map,
        List.length_range] at this
      omega
    have h0 : matEntry (minMaxScale (rawDistMatrix fibers)) 0 0 = 0 :=
      minMaxScale_diag_zero (rawDistMatrix_nonneg fibers) (rawDistMatrix_diag fibers) 0
    have hall : diagAllNZ (minMaxScale (rawDistMatrix fibers)) = false := by
      unfold diagAllNZ
      rw [List.all_eq_false]
      refine ⟨0, List.mem_range.mpr (List.length_pos.mpr hne), ?_⟩
      simp [h0]
    simp [distDiagGuard, hall, boolToF]
  · exact minMaxScale_nonneg (rawDistMatrix_nonneg fibers)
  · exact minMaxScale_diag_zero (rawDistMatrix_nonneg fibers) (rawDistMatrix_diag fibers)

/-- Claim C1, witness: the amended theorem instantiated at a concrete
one-fiber store. -/
theorem c1_normalized_distance_witness :
    1 ≤ ([[((0:ℝ), 0, 0)]] : List (List Pt)).length ∧
    ∃ M, pairwiseDistance_matrix [[((0:ℝ), 0, 0)]] = some M ∧
      (∀ i j, 0 ≤ matEntry M i j) ∧ (∀ i, matEntry M i i = 0) :=
  ⟨by decide, c1_normalized_distance [[((0:ℝ), 0, 0)]] (by decide)⟩

/-- The embedding of an exact rational matrix into the real matrices, used
to transport concrete normalization computations into the real-valued
geometric pipeline. -/
def ratMatCast (Q : Mat ℚ) : Mat ℝ :=
  Q.map (fun row => row.map (Rat.cast : ℚ → ℝ))

lemma getD_map_ratCast (row : List ℚ) (j : ℕ) :
    (row.map (Rat.cast : ℚ → ℝ)).getD j 0 = ((row.getD j 0 : ℚ) : ℝ) := by
  by_cases hj : j < row.length
  · have h1 : j < (row.map (Rat.cast : ℚ → ℝ)).length := by
      rw [List.length_map]
      exact hj
    rw [List.getD_eq_getElem _ _ h1, List.getElem_map, List.getD_eq_getElem _ _ hj]
  · rw [List.getD_eq_default _ _ (by rw [List.length_map]; omega),
      List.getD_eq_default _ _ (by omega)]
    norm_num

lemma colVals_ratMatCast (Q : Mat ℚ) (j : ℕ) :
    colVals (ratMatCast Q) j = (colVals Q j).map (Rat.cast : ℚ → ℝ) := by
  unfold colVals ratMatCast
  rw [List.map_map, List.map_map]
  refine List.map_congr_left ?_
  intro row _
  exact getD_map_ratCast row j

lemma foldl_min_ratCast : ∀ (l : List ℚ) (a : ℚ),
    (l.map (Rat.cast : ℚ → ℝ)).foldl min ((a : ℚ) : ℝ) = ((l.foldl min a : ℚ) : ℝ) := by
  intro l
  induction l with
  | nil => intro a; rfl
  | cons x xs ih =>
    intro a
    rw [List.map_cons, List.foldl_cons, List.foldl_cons, ← Rat.cast_min, ih]

lemma foldl_max_ratCast : ∀ (l : List ℚ) (a : ℚ),
    (l.map (Rat.cast : ℚ → ℝ)).foldl max ((a : ℚ) : ℝ) = ((l.foldl max a : ℚ) : ℝ) := by
  intro l
  induction l with
  | nil => intro a; rfl
  | cons x xs ih =>
    intro a
    rw [List.map_cons, List.foldl_cons, List.foldl_cons, ← Rat.cast_max, ih]

lemma listMin_ratCast (l : List ℚ) :
    listMin (l.map (Rat.cast : ℚ → ℝ)) = ((listMin l : ℚ) : ℝ) := by
  cases l with
  | nil => simp [listMin]
  | cons x xs => exact foldl_min_ratCast xs x

lemma listMax_ratCast (l : List ℚ) :
    listMax (l.map (Rat.cast : ℚ → ℝ)) = ((listMax l : ℚ) : ℝ) := by
  cases l with
  | nil => simp [listMax]
  | cons x xs => exact foldl_max_ratCast xs x

lemma scaleEntry_ratCast (Q : Mat ℚ) (j : ℕ) (x : ℚ) :
    scaleEntry (ratMatCast Q) j ((x : ℚ) : ℝ) = ((scaleEntry Q j x : ℚ) : ℝ) := by
  show (((x : ℚ) : ℝ) - listMin (colVals (ratMatCast Q) j)) /
      (if listMax (colVals (ratMatCast Q) j) = listMin (colVals (ratMatCast Q) j) then 1
        else listMax (colVals (ratMatCast Q) j) - listMin (colVals (ratMatCast Q) j)) = _
  rw [colVals_ratMatCast, listMin_ratCast, listMax_ratCast]
  have hcond : (((listMax (colVals Q j) : ℚ) : ℝ) = ((listMin (colVals Q j) : ℚ) : ℝ))
      ↔ listMax (colVals Q j) = listMin (colVals Q j) := Rat.cast_injective.eq_iff
  show _ = ((((x - listMin (colVals Q j)) /
      (if listMax (colVals Q j) = listMin (colVals Q j) then 1
        else listMax (colVals Q j) - listMin (colVals Q j))) : ℚ) : ℝ)
  by_cases heq : listMax (colVals Q j) = listMin (colVals Q j)
  · rw [if_pos (hcond.mpr heq), if_pos heq]
    push_cast
    ring
  · rw [if_neg (fun hc => heq (hcond.mp hc)), if_neg heq]
    push_cast
    ring

lemma minMaxScale_ratCast (Q : Mat ℚ) :
    minMaxScale (ratMatCast Q) = ratMatCast (minMaxScale Q) := by
  show (Q.map (fun row => row.map (Rat.cast : ℚ → ℝ))).map
      (fun row => row.enum.map (fun p => scaleEntry (ratMatCast Q) p.1 p.2))
    = (Q.map (fun row => row.enum.map (fun p => scaleEntry Q p.1 p.2))).map
      (fun row => row.map (Rat.cast : ℚ → ℝ))
  rw [List.map_map, List.map_map]
  refine List.map_congr_left ?_
  intro row _
  show ((row.map (Rat.cast : ℚ → ℝ)).enum).map (fun p => scaleEntry (ratMatCast Q) p.1 p.2)
    = (row.enum.map (fun p => scaleEntry Q p.1 p.2)).map (Rat.cast : ℚ → ℝ)
  rw [List.enum_map, List.map_map, List.map_map]
  refine List.map_congr_left ?_
  intro p _
  show scaleEntry (ratMatCast Q) p.1 ((p.2 : ℚ) : ℝ) = ((scaleEntry Q p.1 p.2 : ℚ) : ℝ)
  exact scaleEntry_ratCast Q p.1 p.2

lemma distDiagGuard_some {α : Type} [LinearOrderedField α] [DecidableEq α] {M : Mat α}
    (hM : M ≠ []) (h0 : matEntry M 0 0 = 0) : distDiagGuard M = some M := by
  have hall : diagAllNZ M = false := by
    unfold diagAllNZ
    rw [List.all_eq_false]
    exact ⟨0, List.mem_range.mpr (List.length_pos.mpr hM), by simp [h0]⟩
  simp [distDiagGuard, hall, boolToF]

lemma fiberDistance_single (a b : Pt) : fiberDistance [a] [b] = pnorm (psub a b) := by
  unfold fiberDistance dForward
  simp

/-- Three single-point fibers on the x axis at 0, 1 and 4; their pairwise
geometric distances are 1, 4 and 3. -/
def store3R : List (List Pt) :=
  [[(0, 0, 0)], [(1, 0, 0)], [(4, 0, 0)]]

lemma fiberDistance_xaxis (x y : ℝ) (h : 0 ≤ y - x) :
    fiberDistance [(x, 0, 0)] [(y, 0, 0)] = y - x := by
  rw [fiberDistance_single]
  unfold pnorm psub
  simp only
  rw [show (x - y) ^ 2 + ((0:ℝ) - 0) ^ 2 + ((0:ℝ) - 0) ^ 2 = (y - x) ^ 2 by ring]
  exact Real.sqrt_sq h

lemma rawDistMatrix_store3R :
    rawDistMatrix store3R = ratMatCast [[0, 1, 4], [1, 0, 3], [4, 3, 0]] := by
  unfold rawDistMatrix
  rw [show store3R.length = 3 from rfl, show List.range 3 = [0, 1, 2] by decide]
  simp only [List.map_cons, List.map_nil]
  show [[fiberDistance [((0:ℝ), 0, 0)] [((0:ℝ), 0, 0)],
         fiberDistance [((0:ℝ), 0, 0)] [((1:ℝ), 0, 0)],
         fiberDistance [((0:ℝ), 0, 0)] [((4:ℝ), 0, 0)]],
        [fiberDistance [((0:ℝ), 0, 0)] [((1:ℝ), 0, 0)],
         fiberDistance [((1:ℝ), 0, 0)] [((1:ℝ), 0, 0)],
         fiberDistance [((1:ℝ), 0, 0)] [((4:ℝ), 0, 0)]],
        [fiberDistance [((0:ℝ), 0, 0)] [((4:ℝ), 0, 0)],
         fiberDistance [((1:ℝ), 0, 0)] [((4:ℝ), 0, 0)],
         fiberDistance [((4:ℝ), 0, 0)] [((4:ℝ), 0, 0)]]]
      = ratMatCast [[0, 1, 4], [1, 0, 3], [4, 3, 0]]
  rw [fiberDistance_xaxis 0 0 (by norm_num), fiberDistance_xaxis 0 1 (by norm_num),
    fiberDistance_xaxis 0 4 (by norm_num), fiberDistance_xaxis 1 4 (by norm_num),
    fiberDistance_xaxis 1 1 (by norm_num), fiberDistance_xaxis 4 4 (by norm_num)]
  simp only [ratMatCast, List.map_cons, List.map_nil]
  norm_num

/-- Claim C1, counterexample to symmetry: for the three single-point
fibers at x = 0, 1, 4, the normalized distance matrix has entry (0,1) =
1/3 but entry (1,0) = 1/4 — per-column min-max normalization destroys the
symmetry of the mirrored distance matrix. -/
theorem c1_symmetry_counterexample :
    matEntry ((pairwiseDistance_matrix store3R).getD []) 0 1
      ≠ matEntry ((pairwiseDistance_matrix store3R).getD []) 1 0 := by
  have hmmq : minMaxScale ([[0, 1, 4], [1, 0, 3], [4, 3, 0]] : Mat ℚ)
      = [[0, 1/3, 1], [1/4, 0, 3/4], [1, 1, 0]] := by
    with_unfolding_all decide
  have hMM : minMaxScale (rawDistMatrix store3R)
      = ratMatCast [[0, 1/3, 1], [1/4, 0, 3/4], [1, 1, 0]] := by
    rw [rawDistMatrix_store3R, minMaxScale_ratCast, hmmq]
  have hguard : pairwiseDistance_matrix store3R
      = some (ratMatCast [[0, 1/3, 1], [1/4, 0, 3/4], [1, 1, 0]]) := by
    unfold pairwiseDistance_matrix
    rw [hMM]
    refine distDiagGuard_some (by simp [ratMatCast]) ?_
    show ((ratMatCast [[0, 1/3, 1], [1/4, 0, 3/4], [1, 1, 0]]).getD 0 []).getD 0 0 = 0
    simp [ratMatCast]
  rw [hguard, Option.getD_some]
  have h01 : matEntry (ratMatCast [[0, 1/3, 1], [1/4, 0, 3/4], [1, 1, 0]]) 0 1
      = (((1:ℚ)/3 : ℚ) : ℝ) := by
    simp [ratMatCast, matEntry]
  have h10 : matEntry (ratMatCast [[0, 1/3, 1], [1/4, 0, 3/4], [1, 1, 0]]) 1 0
      = (((1:ℚ)/4 : ℚ) : ℝ) := by
    simp [ratMatCast, matEntry]
  rw [h01, h10]
  intro hcon
  have : ((1:ℚ)/3) = ((1:ℚ)/4) := Rat.cast_injective hcon
  norm_num at this
